import Mathlib

/-!
# Code generator of the C compiler (`codegen.c`)

A shallow embedding of `gen`, `gen_lval`, `push_imm32`, `push` and `pop`
together with the tracked `stackpos`, of `idents_in_statement` and
`idents_in_code`, and a small 64-bit machine on which the emitted instruction
lines are run.

Conventions of the embedding:

* the text written by `printf` is kept as a list of `Instr`, one constructor
  per format string of the generator;
* `exit(1)` and a failing `assert` end the run: the generator returns the
  reason and the state reached at that moment;
* the generator is embedded twice. `gen_raw` works on `RawNode`, the
  `struct Node` as it lies in memory: the kind is the integer `ty`, the
  pointers `lhs` and `rhs` may be null, a read through a null pointer ends the
  run, and `stackpos` is a 32-bit `int` (every assignment to it is taken modulo
  `2^32`). `gen` works on `Node`, the trees without null children, one variant
  per group of fields `gen` reads, and computes `stackpos` in `Int`;
* on the node in memory of a tree (`Node.raw`), and while `stackpos` stays
  within the range of `int`, the two do the same (`gen_raw_agrees`).
-/

namespace CCompiler

/-! ## Abstract syntax tree -/

/-- Kinds of the nodes with two children (`lhs` and `rhs`), those built by the
parser rules `assign`, `equal`, `relational`, `add` and `mul`: the
single-letter kinds are their ASCII code, the others are members of the node
enum. -/
inductive BinKind where
  /-- Kind `'+'`. -/
  | add
  /-- Kind `'-'`. -/
  | sub
  /-- Kind `'*'`. -/
  | mul
  /-- Kind `'/'`. -/
  | div
  /-- Kind `'<'`. -/
  | lt
  /-- Kind `'>'`. -/
  | gt
  /-- Kind `'='`. -/
  | assign
  /-- Kind `ND_LESSEQUAL`. -/
  | lessequal
  /-- Kind `ND_GREATEREQUAL`. -/
  | greaterequal
  /-- Kind `ND_EQUAL`. -/
  | equal
  /-- Kind `ND_NOTEQUAL`. -/
  | notequal
  deriving DecidableEq, Repr

/-- Value of `ND_NUM` in the node enum (the enum starts at 256). -/
def ND_NUM : Int := 259
/-- Value of `ND_IDENT` in the node enum. -/
def ND_IDENT : Int := 260
/-- Value of `ND_LESSEQUAL` in the node enum. -/
def ND_LESSEQUAL : Int := 263
/-- Value of `ND_GREATEREQUAL` in the node enum. -/
def ND_GREATEREQUAL : Int := 264
/-- Value of `ND_EQUAL` in the node enum. -/
def ND_EQUAL : Int := 265
/-- Value of `ND_NOTEQUAL` in the node enum. -/
def ND_NOTEQUAL : Int := 266
/-- Value of `ND_CALL` in the node enum. -/
def ND_CALL : Int := 271

/-- The integer stored in `node->ty` for a node with two children. -/
def BinKind.ty : BinKind → Int
  | .add => 43
  | .sub => 45
  | .mul => 42
  | .div => 47
  | .lt => 60
  | .gt => 62
  | .assign => 61
  | .lessequal => ND_LESSEQUAL
  | .greaterequal => ND_GREATEREQUAL
  | .equal => ND_EQUAL
  | .notequal => ND_NOTEQUAL

/-- An AST node as `gen` reads it: `val` of a literal, `name` of an identifier,
`name` and `args` of a call (`cc.h` spells these two `fname` and `fargs`),
`lhs` and `rhs` of a node with two children. Children are never null here; the
struct with its kind as an integer and its pointers that may be null is
`RawNode`. -/
inductive Node where
  /-- Kind `ND_NUM`, with `val`. -/
  | num (val : Int)
  /-- Kind `ND_IDENT`, with `name`. -/
  | ident (name : String)
  /-- Kind `ND_CALL`, with `name` and the vector `args`. -/
  | call (name : String) (args : List Node)
  /-- Any kind with the two children `lhs` and `rhs`. -/
  | binop (kind : BinKind) (lhs rhs : Node)
  deriving Repr

/-- The integer stored in `node->ty`. -/
def Node.ty : Node → Int
  | .num _ => ND_NUM
  | .ident _ => ND_IDENT
  | .call _ _ => ND_CALL
  | .binop k _ _ => k.ty

/-! ## The identifier map -/

/-- The associative array `Map`: the vectors `keys` and `vals` side by side, in
insertion order. The values stored by the generator are stack offsets. -/
abbrev Map := List (String × Int)

/-- Modelled from the spec: `map_get` is declared in `cc.h` and its body is not
part of the sources. It returns the most recently bound value of the key, or
the absent sentinel (`none` here, a null pointer in C). -/
def map_get : Map → String → Option Int
  | [], _ => none
  | (k, v) :: rest, key =>
    match map_get rest key with
    | some w => some w
    | none => if k = key then some v else none

/-! ## Emitted lines -/

/-- The registers named in the emitted text. -/
inductive Reg where
  | rax | rdi | rsi | rdx | rcx | r8 | r9
  deriving DecidableEq, Repr

/-- One emitted line of assembly, one constructor per `printf` of the
generator. -/
inductive Instr where
  /-- Line `push %d`. -/
  | push_imm (imm : Int)
  /-- Line `push %s`. -/
  | push (reg : Reg)
  /-- Line `pop %s`. -/
  | pop (reg : Reg)
  /-- Line `lea rax, [rbp%+d]`. -/
  | lea_rax_rbp (offset : Int)
  /-- Line `mov rax, [rax]`. -/
  | mov_rax_mem
  /-- Line `mov [rax], rdi`. -/
  | mov_mem_rdi
  /-- Line `sub rsp, %d` (also the literal `sub rsp, 8`). -/
  | sub_rsp (n : Int)
  /-- Line `add rsp, 8`, the operand kept as a field. -/
  | add_rsp (n : Int)
  /-- Line `xor rax, rax`. -/
  | xor_rax_rax
  /-- Line `call %s`. -/
  | call (name : String)
  /-- Line `add rax, rdi`. -/
  | add_rax_rdi
  /-- Line `sub rax, rdi`. -/
  | sub_rax_rdi
  /-- Line `mul rdi`. -/
  | mul_rdi
  /-- Line `xor rdx, rdx`. -/
  | xor_rdx_rdx
  /-- Line `div rdi`. -/
  | div_rdi
  /-- Line `cmp rax, rdi`. -/
  | cmp_rax_rdi
  /-- Line `sete al`. -/
  | sete_al
  /-- Line `setne al`. -/
  | setne_al
  /-- Line `movzb rax, al`. -/
  | movzb_rax_al
  deriving DecidableEq, Repr

/-! ## Generator state and the generator -/

/-- What is known at one `printf("  call %s\n", ...)`: the locals of the
`ND_CALL` case and the value of `stackpos` at that moment. -/
structure CallSite where
  /-- Local `nargs`. -/
  nargs : Int
  /-- Local `orig_stackpos`. -/
  orig_stackpos : Int
  /-- Local `align_stack`. -/
  align_stack : Bool
  /-- Value of `stackpos` when the `call` line is printed. -/
  stackpos : Int
  deriving DecidableEq, Repr

/-- The state the generator works on: the static `stackpos`, the lines printed
so far, and a log (not in the C code) of the call sites printed so far. -/
structure GenState where
  /-- The static variable `stackpos`, an `int`: `gen_raw` keeps it in 32 bits,
  `gen` computes it in `Int`. -/
  stackpos : Int
  /-- Lines printed on standard output, oldest first. -/
  out : List Instr
  /-- Log of the `call` lines printed, oldest first. -/
  calls : List CallSite
  deriving DecidableEq, Repr

/-- Reasons for which the generator stops. -/
inductive GenError where
  /-- Message `Not an identifier.` of `gen_lval`, then `exit(1)`. -/
  | not_an_identifier
  /-- Message `An unexpected operator type %d during assembly generation.`,
  then `exit(1)`. -/
  | unexpected_operator (ty : Int)
  /-- Failure of `assert(stackpos >= 0)` in `pop`. -/
  | assert_pop
  /-- Failure of `assert(stackpos == orig_stackpos)` in the `ND_CALL` case. -/
  | assert_call
  deriving DecidableEq, Repr

/-- Outcome of a piece of the generator: it returns with a new state, or the
process ends with a reason in the state reached. -/
inductive Result where
  | ok (st : GenState)
  | abort (err : GenError) (st : GenState)
  deriving DecidableEq, Repr

/-- Sequencing: run `k` after a piece that returned. -/
def Result.andThen (r : Result) (k : GenState → Result) : Result :=
  match r with
  | .ok st => k st
  | .abort e st => .abort e st

/-- The state in which a piece of the generator ended. -/
def Result.state : Result → GenState
  | .ok st => st
  | .abort _ st => st

/-- One `printf` of an instruction line. -/
def emit (i : Instr) (st : GenState) : GenState :=
  { st with out := st.out ++ [i] }

/-- Function `push_imm32`. -/
def push_imm32 (imm : Int) (st : GenState) : GenState :=
  { emit (.push_imm imm) st with stackpos := st.stackpos + 8 }

/-- Function `push`. -/
def push (reg : Reg) (st : GenState) : GenState :=
  { emit (.push reg) st with stackpos := st.stackpos + 8 }

/-- Function `pop`: the line is printed and `stackpos` lowered before the
assertion is checked. -/
def pop (reg : Reg) (st : GenState) : Result :=
  let st1 : GenState := { emit (.pop reg) st with stackpos := st.stackpos - 8 }
  if 0 ≤ st1.stackpos then .ok st1 else .abort .assert_pop st1

/-- Function `gen_lval`. An absent key gives a null pointer, which the cast
turns into offset 0. -/
def gen_lval (node : Node) (idents : Map) (st : GenState) : Result :=
  match node with
  | .ident name =>
    let offset : Int := (map_get idents name).getD 0
    .ok (push .rax (emit (.lea_rax_rbp offset) st))
  | _ => .abort .not_an_identifier st

/-- The array `regs` of the `ND_CALL` case. -/
def regs : List Reg := [.rdi, .rsi, .rdx, .rcx, .r8, .r9]

/-- The loop `for (int i = 0; i < nregargs; i++) pop(regs[i]);`, given the
registers `regs[0..nregargs-1]`. -/
def pop_regs : List Reg → GenState → Result
  | [], st => .ok st
  | r :: rs, st => (pop r st).andThen (pop_regs rs)

/-- Second `switch` of `gen`: the lines of a binary operator, or `none` in the
`default` case. -/
def binop_lines : BinKind → Option (List Instr)
  | .add => some [.add_rax_rdi]
  | .sub => some [.sub_rax_rdi]
  | .mul => some [.mul_rdi]
  | .div => some [.xor_rdx_rdx, .div_rdi]
  | .equal => some [.cmp_rax_rdi, .sete_al, .movzb_rax_al]
  | .notequal => some [.cmp_rax_rdi, .setne_al, .movzb_rax_al]
  | _ => none

/-- Several `printf` in a row. -/
def emit_all (is : List Instr) (st : GenState) : GenState :=
  { st with out := st.out ++ is }

/-- The part of the `ND_CALL` case that follows the evaluation of the
arguments. -/
def call_tail (name : String) (nargs nregargs nstackargs orig_stackpos : Int)
    (align_stack : Bool) (st : GenState) : Result :=
  (pop_regs (regs.take nregargs.toNat) st).andThen fun st =>
    let st := emit .xor_rax_rax st
    let st : GenState :=
      { emit (.call name) st with
        calls := st.calls ++ [⟨nargs, orig_stackpos, align_stack, st.stackpos⟩] }
    let st : GenState :=
      if 0 < nstackargs then
        { emit (.sub_rsp (8 * nstackargs)) st with stackpos := st.stackpos - 8 * nstackargs }
      else st
    let st : GenState :=
      if align_stack then
        { emit (.add_rsp 8) st with stackpos := st.stackpos - 8 }
      else st
    if st.stackpos = orig_stackpos then .ok (push .rax st)
    else .abort .assert_call st

mutual
/-- Function `gen`. -/
def gen (node : Node) (idents : Map) (st : GenState) : Result :=
  match node with
  | .num val => .ok (push_imm32 val st)
  | .ident name =>
    (gen_lval (.ident name) idents st).andThen fun st =>
    (pop .rax st).andThen fun st =>
    .ok (push .rax (emit .mov_rax_mem st))
  | .call name args =>
    let nargs : Int := args.length
    let nregargs : Int := if nargs ≤ 6 then nargs else 6
    let nstackargs : Int := nargs - nregargs
    let orig_stackpos : Int := st.stackpos
    let align_stack : Bool := decide (Int.tmod (st.stackpos + 8 * nstackargs) 16 ≠ 0)
    let st : GenState :=
      if align_stack then
        { emit (.sub_rsp 8) st with stackpos := st.stackpos + 8 }
      else st
    (gen_args args idents st).andThen
      (call_tail name nargs nregargs nstackargs orig_stackpos align_stack)
  | .binop .assign lhs rhs =>
    (gen_lval lhs idents st).andThen fun st =>
    (gen rhs idents st).andThen fun st =>
    (pop .rdi st).andThen fun st =>
    (pop .rax st).andThen fun st =>
    .ok (push .rdi (emit .mov_mem_rdi st))
  | .binop kind lhs rhs =>
    (gen lhs idents st).andThen fun st =>
    (gen rhs idents st).andThen fun st =>
    (pop .rdi st).andThen fun st =>
    (pop .rax st).andThen fun st =>
    match binop_lines kind with
    | some lines => .ok (push .rax (emit_all lines st))
    | none => .abort (.unexpected_operator kind.ty) st
/-- The loop `for (int i = nargs - 1; i >= 0; i--) gen(node->args->data[i], idents);`
over the vector `args`: the last element is generated first. -/
def gen_args (args : List Node) (idents : Map) (st : GenState) : Result :=
  match args with
  | [] => .ok st
  | a :: rest => (gen_args rest idents st).andThen (gen a idents)
end

/-! ## Quantities of the `ND_CALL` case and printed lines -/

/-- Local `nregargs` of the `ND_CALL` case, from `nargs`. -/
def nregargs_of (nargs : Int) : Int := if nargs ≤ 6 then nargs else 6

/-- Local `align_stack` of the `ND_CALL` case, from `stackpos` and `nargs`. -/
def align_of (stackpos nargs : Int) : Bool :=
  decide (Int.tmod (stackpos + 8 * (nargs - nregargs_of nargs)) 16 ≠ 0)

/-- The optional `sub rsp, 8` at the start of the `ND_CALL` case. -/
def enter_call (align : Bool) (st : GenState) : GenState :=
  if align then { emit (.sub_rsp 8) st with stackpos := st.stackpos + 8 } else st

/-- The lines printed by the `ND_CALL` case after the arguments. -/
def call_tail_lines (name : String) (nargs : Int) (align : Bool) : List Instr :=
  (regs.take (nregargs_of nargs).toNat).map Instr.pop ++ [.xor_rax_rax, .call name]
    ++ (if 0 < nargs - nregargs_of nargs then [.sub_rsp (8 * (nargs - nregargs_of nargs))] else [])
    ++ (if align then [.add_rsp 8] else []) ++ [.push .rax]

/-- The lines `gen` prints for a node when it is entered with `stackpos = s`. -/
def lines (node : Node) (idents : Map) (s : Int) : List Instr :=
  (gen node idents ⟨s, [], []⟩).state.out

/-- The lines of the arguments of a call in the order of the loop, last
argument first: argument `i` of `n` is entered with `stackpos = s + 8 * (n - 1 - i)`. -/
def args_lines (idents : Map) : List Node → Int → List Instr
  | [], _ => []
  | a :: rest, s => args_lines idents rest s ++ lines a idents (s + 8 * (rest.length : Int))

/-- The lines of a call up to the `call` line itself: the optional alignment,
the arguments, the pops into the argument registers and `xor rax, rax`. -/
def call_head_lines (args : List Node) (idents : Map) (s : Int) : List Instr :=
  (if align_of s args.length then [Instr.sub_rsp 8] else [])
    ++ args_lines idents args (s + (if align_of s args.length then 8 else 0))
    ++ (regs.take (min args.length 6)).map Instr.pop
    ++ [Instr.xor_rax_rax]

/-! ## Accepted nodes -/

/-- The generator ended by `exit(1)`. -/
def GenError.is_exit : GenError → Bool
  | .not_an_identifier => true
  | .unexpected_operator _ => true
  | _ => false

/-- The binary kinds listed by the failure characterisation: `'+'`, `'-'`,
`'*'`, `'/'`, `ND_EQUAL` and `ND_NOTEQUAL`. -/
def listed_binop : BinKind → Bool
  | .add | .sub | .mul | .div | .equal | .notequal => true
  | _ => false

mutual
/-- The nodes described by the failure characterisation as those on which the
generator returns. -/
def accepted : Node → Bool
  | .num _ => true
  | .ident _ => true
  | .call _ args => accepted_all args
  | .binop .assign (.ident _) rhs => accepted rhs
  | .binop .assign _ _ => false
  | .binop kind lhs rhs => listed_binop kind && (accepted lhs && accepted rhs)
/-- Every node of a list is accepted. -/
def accepted_all : List Node → Bool
  | [] => true
  | a :: rest => accepted a && accepted_all rest
end

/-- The kinds `'<'`, `'>'`, `ND_LESSEQUAL` and `ND_GREATEREQUAL`. -/
def relational_kind : BinKind → Bool
  | .lt | .gt | .lessequal | .greaterequal => true
  | _ => false

/-- The set instruction printed for `ND_EQUAL` and `ND_NOTEQUAL`. -/
def set_line : BinKind → Instr
  | .notequal => .setne_al
  | _ => .sete_al

/-! ## Bytes moved on the hardware stack -/

/-- Bytes by which one emitted line lowers `rsp`. -/
def rsp_lowering_of : Instr → Int
  | .push_imm _ => 8
  | .push _ => 8
  | .pop _ => -8
  | .sub_rsp n => n
  | .add_rsp n => -n
  | _ => 0

/-- Net number of bytes by which a sequence of emitted lines lowers `rsp`. -/
def rsp_lowering (is : List Instr) : Int :=
  (is.map rsp_lowering_of).sum

/-- Bytes one emitted line pushes or reserves on the stack. -/
def bytes_reserved_of : Instr → Int
  | .push_imm _ => 8
  | .push _ => 8
  | .sub_rsp n => n
  | _ => 0

/-- Bytes one emitted line pops or releases from the stack. -/
def bytes_released_of : Instr → Int
  | .pop _ => 8
  | .add_rsp n => n
  | _ => 0

/-- Bytes pushed or reserved by a sequence of emitted lines. -/
def bytes_reserved (is : List Instr) : Int :=
  (is.map bytes_reserved_of).sum

/-- Bytes popped or released by a sequence of emitted lines. -/
def bytes_released (is : List Instr) : Int :=
  (is.map bytes_released_of).sum

/-! ## The machine -/

/-- The number of 64-bit patterns, `2^64`. -/
def two64 : Nat := 18446744073709551616

/-- The 64-bit pattern of an integer (two's complement). -/
def bits64 (z : Int) : Nat := (z % 18446744073709551616).toNat

/-- A machine state: the registers the emitted lines name, the zero flag, the
evaluation stack (the cells from `rsp` upwards, top first) and the 8-byte slots
of memory outside the evaluation stack, keyed by address. Register and cell
contents are 64-bit patterns, numbers below `2^64`. -/
structure Machine where
  rax : Nat
  rdi : Nat
  rsi : Nat
  rdx : Nat
  rcx : Nat
  r8 : Nat
  r9 : Nat
  rbp : Nat
  zf : Bool
  stack : List Nat
  mem : Nat → Nat

/-- Read a register. -/
def Machine.get (m : Machine) : Reg → Nat
  | .rax => m.rax
  | .rdi => m.rdi
  | .rsi => m.rsi
  | .rdx => m.rdx
  | .rcx => m.rcx
  | .r8 => m.r8
  | .r9 => m.r9

/-- Write a register. -/
def Machine.set (m : Machine) (r : Reg) (v : Nat) : Machine :=
  match r with
  | .rax => { m with rax := v }
  | .rdi => { m with rdi := v }
  | .rsi => { m with rsi := v }
  | .rdx => { m with rdx := v }
  | .rcx => { m with rcx := v }
  | .r8 => { m with r8 := v }
  | .r9 => { m with r9 := v }

/-- Effect of one emitted line; `none` when the line faults or is outside the
machine (an operand that cannot be encoded, a pop from an empty evaluation
stack, a division fault, a `call` to external code). `push %d` takes a 32-bit
immediate and sign-extends it; `mul` and `div` are the unsigned instructions on
`rdx:rax`; cells reserved by `sub rsp` hold unspecified data, 0 here; the zero
flag is kept where the instruction set leaves it undefined. -/
def step : Instr → Machine → Option Machine
  | .push_imm imm, m =>
    if -2147483648 ≤ imm ∧ imm < 2147483648 then some { m with stack := bits64 imm :: m.stack }
    else none
  | .push r, m => some { m with stack := m.get r :: m.stack }
  | .pop r, m =>
    match m.stack with
    | [] => none
    | v :: rest => some ({ m with stack := rest }.set r v)
  | .lea_rax_rbp offset, m => some { m with rax := bits64 ((m.rbp : Int) + offset) }
  | .mov_rax_mem, m => some { m with rax := m.mem m.rax }
  | .mov_mem_rdi, m => some { m with mem := fun a => if a = m.rax then m.rdi else m.mem a }
  | .sub_rsp n, m =>
    if 0 ≤ n ∧ n % 8 = 0 then some { m with stack := List.replicate (n / 8).toNat 0 ++ m.stack }
    else none
  | .add_rsp n, m =>
    if 0 ≤ n ∧ n % 8 = 0 ∧ (n / 8).toNat ≤ m.stack.length then
      some { m with stack := m.stack.drop (n / 8).toNat }
    else none
  | .xor_rax_rax, m => some { m with rax := 0, zf := true }
  | .call _, _ => none
  | .add_rax_rdi, m =>
    let v := (m.rax + m.rdi) % two64
    some { m with rax := v, zf := decide (v = 0) }
  | .sub_rax_rdi, m =>
    let v := (m.rax + (two64 - m.rdi % two64)) % two64
    some { m with rax := v, zf := decide (v = 0) }
  | .mul_rdi, m =>
    some { m with rax := (m.rax * m.rdi) % two64, rdx := (m.rax * m.rdi) / two64 % two64 }
  | .xor_rdx_rdx, m => some { m with rdx := 0, zf := true }
  | .div_rdi, m =>
    let dividend := m.rdx * two64 + m.rax
    if m.rdi = 0 then none
    else if two64 ≤ dividend / m.rdi then none
    else some { m with rax := dividend / m.rdi, rdx := dividend % m.rdi }
  | .cmp_rax_rdi, m => some { m with zf := decide (m.rax = m.rdi) }
  | .sete_al, m => some { m with rax := m.rax - m.rax % 256 + (if m.zf then 1 else 0) }
  | .setne_al, m => some { m with rax := m.rax - m.rax % 256 + (if m.zf then 0 else 1) }
  | .movzb_rax_al, m => some { m with rax := m.rax % 256 }

/-- Run emitted lines in order. -/
def run : List Instr → Machine → Option Machine
  | [], m => some m
  | i :: rest, m => (step i m).bind (run rest)

/-- The address `rbp + offset` of a variable slot, as a 64-bit pattern. -/
def slot_addr (m : Machine) (offset : Int) : Nat := bits64 ((m.rbp : Int) + offset)

/-- A machine with every register and slot zero and an empty evaluation stack. -/
def machine0 : Machine :=
  { rax := 0, rdi := 0, rsi := 0, rdx := 0, rcx := 0, r8 := 0, r9 := 0, rbp := 0,
    zf := false, stack := [], mem := fun _ => 0 }

/-! ## The arithmetic subset and its values -/

/-- Wrap an integer into the signed 64-bit range. -/
def wrap64 (z : Int) : Int :=
  (z + 9223372036854775808) % 18446744073709551616 - 9223372036854775808

/-- The arithmetic subset: `NUM` literals (a C `int`) under `'+'`, `'-'`, `'*'`,
`ND_EQUAL` and `ND_NOTEQUAL`. -/
def arith : Node → Bool
  | .num val => decide (-2147483648 ≤ val ∧ val < 2147483648)
  | .binop .add lhs rhs => arith lhs && arith rhs
  | .binop .sub lhs rhs => arith lhs && arith rhs
  | .binop .mul lhs rhs => arith lhs && arith rhs
  | .binop .equal lhs rhs => arith lhs && arith rhs
  | .binop .notequal lhs rhs => arith lhs && arith rhs
  | _ => false

/-- Every node of a list is in the arithmetic subset. -/
def arith_all (args : List Node) : Bool := args.all arith

/-- The value an expression of the arithmetic subset denotes in signed 64-bit
two's-complement arithmetic, `lhs op rhs` in that order and comparisons giving
0 or 1 (0 for a node outside the subset). -/
def value : Node → Int
  | .num val => val
  | .binop .add lhs rhs => wrap64 (value lhs + value rhs)
  | .binop .sub lhs rhs => wrap64 (value lhs - value rhs)
  | .binop .mul lhs rhs => wrap64 (value lhs * value rhs)
  | .binop .equal lhs rhs => if value lhs = value rhs then 1 else 0
  | .binop .notequal lhs rhs => if value lhs = value rhs then 0 else 1
  | _ => 0

/-! ## Statements proved by induction over the tree -/

/-- Outcome of `gen` on a node: the statement proved by induction. -/
def outcome_at (idents : Map) (node : Node) : Prop :=
  ∀ st : GenState, 0 ≤ st.stackpos →
    (accepted node = true → ∃ st1, gen node idents st = .ok st1 ∧ st1.stackpos = st.stackpos + 8) ∧
    (accepted node = false → ∃ e st1, gen node idents st = .abort e st1 ∧ e.is_exit = true)

/-- The state `st` with earlier output `o` and earlier call sites `c` put in
front of its own. -/
def GenState.under (o : List Instr) (c : List CallSite) (st : GenState) : GenState :=
  ⟨st.stackpos, o ++ st.out, c ++ st.calls⟩

/-- The outcome with earlier output and call sites put in front. -/
def Result.under (o : List Instr) (c : List CallSite) : Result → Result
  | .ok st => .ok (st.under o c)
  | .abort e st => .abort e (st.under o c)

/-- Frame property of `gen` on a node: the statement proved by induction. -/
def frame_at (idents : Map) (node : Node) : Prop :=
  ∀ (o : List Instr) (c : List CallSite) (st : GenState),
    gen node idents (st.under o c) = (gen node idents st).under o c

/-- Semantics of the code of an arithmetic expression: the statement proved by
induction. -/
def sem_at (idents : Map) (e : Node) : Prop :=
  arith e = true → ∀ st : GenState, 0 ≤ st.stackpos →
    ∃ code, gen e idents st = .ok ⟨st.stackpos + 8, st.out ++ code, st.calls⟩ ∧
      ∀ m : Machine, ∃ m1, run code m = some m1 ∧
        m1.stack = bits64 (value e) :: m.stack ∧ m1.mem = m.mem ∧ m1.rbp = m.rbp

/-! ## Inputs used below -/

/-- The generator state at the start: `stackpos = 0`, nothing printed. -/
def gen_start : GenState := ⟨0, [], []⟩

/-- The expression `3 + 4 * 2`. -/
def expr_3_plus_4_times_2 : Node :=
  .binop .add (.num 3) (.binop .mul (.num 4) (.num 2))

/-- The expression `(0 - 6) / 2`. -/
def expr_neg6_div_2 : Node :=
  .binop .div (.binop .sub (.num 0) (.num 6)) (.num 2)

/-- The comparison `1 < 2`. -/
def expr_1_lt_2 : Node := .binop .lt (.num 1) (.num 2)

/-- The assignment `a = 3 + 4 * 2`. -/
def assign_a : Node := .binop .assign (.ident "a") expr_3_plus_4_times_2

/-- The assignment `a = b = 5`. -/
def assign_a_b_5 : Node :=
  .binop .assign (.ident "a") (.binop .assign (.ident "b") (.num 5))

/-- The call `f(1, 2, 3, 4, 5, 6, 7)`, with one stack-passed argument. -/
def call_f_7 : Node :=
  .call "f" [.num 1, .num 2, .num 3, .num 4, .num 5, .num 6, .num 7]

/-- The call `f(1, 2, 3, 4, 5, 6, 7, 8)`. -/
def call_f_8 : Node :=
  .call "f" [.num 1, .num 2, .num 3, .num 4, .num 5, .num 6, .num 7, .num 8]

/-- The statements `a = 1; a = 2;`. -/
def code_a_twice : List Node :=
  [.binop .assign (.ident "a") (.num 1), .binop .assign (.ident "a") (.num 2)]

/-- The statements `a = b = 1; c + (a = 2); f(d = 3);`. -/
def code_mixed : List Node :=
  [.binop .assign (.ident "a") (.binop .assign (.ident "b") (.num 1)),
   .binop .add (.ident "c") (.binop .assign (.ident "a") (.num 2)),
   .call "f" [.binop .assign (.ident "d") (.num 3)]]

/-- The comparison `f(1, 2, 3, 4, 5, 6, 7) < 2`, on which `gen` stops after the
operands. -/
def expr_call_lt_2 : Node := .binop .lt call_f_7 (.num 2)

/-! ## Collection of the identifiers -/

/-- Modelled from the spec: `new_map` is declared in `cc.h` and its body is not
part of the sources. It returns a map without bindings. -/
def new_map : Map := []

/-- Modelled from the spec: `map_put` is declared in `cc.h` and its body is not
part of the sources. It appends the binding; an earlier binding of the same key
stays in the vectors and is shadowed. -/
def map_put (map : Map) (key : String) (val : Int) : Map :=
  map ++ [(key, val)]

/-- The `if` at the head of `idents_in_statement`: a node of kind `'='` whose
`lhs` is an `ND_IDENT` node puts the name of that node, at the offset
`-8 * (idents->keys->len+1)`. -/
def put_if_assigned (kind : BinKind) (lhs : Node) (idents : Map) : Map :=
  match kind, lhs with
  | .assign, .ident name => map_put idents name (-8 * ((idents.length : Int) + 1))
  | _, _ => idents

/-- Function `idents_in_statement`. `idents->keys->len` is the number of
bindings put so far; the children `lhs` and `rhs` are null in a node other than
one with two children. -/
def idents_in_statement : Node → Map → Map
  | .binop kind lhs rhs, idents =>
    idents_in_statement rhs (idents_in_statement lhs (put_if_assigned kind lhs idents))
  | .num _, idents => idents
  | .ident _, idents => idents
  | .call _ _, idents => idents

/-- Function `idents_in_code`, over the statements that precede the null at the
end of the vector. -/
def idents_in_code (code : List Node) : Map :=
  code.foldl (fun idents stmt => idents_in_statement stmt idents) new_map

/-- The nodes reachable from a node through `lhs` and `rhs` links, the node
itself included. -/
def reachable : Node → List Node
  | .binop kind lhs rhs => .binop kind lhs rhs :: (reachable lhs ++ reachable rhs)
  | .num val => [.num val]
  | .ident name => [.ident name]
  | .call name args => [.call name args]

/-- Some `'='` node reachable from a statement of the code through `lhs` and
`rhs` links has an `IDENT` node with this name as its direct `lhs`. -/
def assigned_in_code (code : List Node) (name : String) : Prop :=
  ∃ stmt ∈ code, ∃ n ∈ reachable stmt, ∃ rhs, n = Node.binop .assign (.ident name) rhs

/-- The name a node with two children puts, if any. -/
def target_name (kind : BinKind) (lhs : Node) : List String :=
  match kind, lhs with
  | .assign, .ident name => [name]
  | _, _ => []

/-- The names on the left of the `'='` nodes reachable from a node through `lhs`
and `rhs`, in the order in which `idents_in_statement` meets them. -/
def assigned_names : Node → List String
  | .binop kind lhs rhs => target_name kind lhs ++ (assigned_names lhs ++ assigned_names rhs)
  | .num _ => []
  | .ident _ => []
  | .call _ _ => []

/-- The bindings put for a list of names when `n` bindings are already there. -/
def slots (n : Nat) : List String → Map
  | [] => []
  | x :: xs => (x, -8 * ((n : Int) + 1)) :: slots (n + 1) xs

/-! ## Stack-passed arguments and prefixes of the output -/

mutual
/-- The number of stack-passed arguments `max(0, nargs - 6)`, summed over all
the `CALL` nodes of an expression. -/
def stack_args : Node → Int
  | .num _ => 0
  | .ident _ => 0
  | .call _ args => max 0 ((args.length : Int) - 6) + stack_args_all args
  | .binop _ lhs rhs => stack_args lhs + stack_args rhs
/-- The stack-passed arguments of a list of expressions. -/
def stack_args_all : List Node → Int
  | [] => 0
  | a :: rest => stack_args a + stack_args_all rest
end

mutual
/-- Every call in the expression has at most six arguments. -/
def calls_within_six : Node → Bool
  | .num _ => true
  | .ident _ => true
  | .call _ args => decide (args.length ≤ 6) && calls_within_six_all args
  | .binop _ lhs rhs => calls_within_six lhs && calls_within_six rhs
/-- Every call in the expressions of a list has at most six arguments. -/
def calls_within_six_all : List Node → Bool
  | [] => true
  | a :: rest => calls_within_six a && calls_within_six_all rest
end

/-- With `b` bytes already on the stack, no prefix of the lines releases more
bytes than `b` plus what the prefix itself has pushed or reserved. -/
def never_below (b : Int) (code : List Instr) : Prop :=
  ∀ k : Nat, 0 ≤ b + rsp_lowering (code.take k)

/-- Drift of `rsp` over the lines of a node: the statement proved by
induction. -/
def drift_at (idents : Map) (node : Node) : Prop :=
  ∀ st : GenState, 0 ≤ st.stackpos →
    ∃ code, (gen node idents st).state.out = st.out ++ code ∧ never_below 0 code ∧
      ((∃ st1, gen node idents st = .ok st1) →
        rsp_lowering code = 8 + 16 * stack_args node)

/-! ## The generator with a record of the values of `stackpos` -/

/-- Outcome of a piece of the generator together with the record (not in the C
code) of the values `stackpos` has taken, one per assignment to it, oldest
first. -/
structure Tracked where
  /-- The outcome, as for the generator itself. -/
  res : Result
  /-- The values `stackpos` has taken so far. -/
  levels : List Int

/-- Sequencing of pieces that keep the record. -/
def Tracked.andThen (t : Tracked) (k : GenState → List Int → Tracked) : Tracked :=
  match t.res with
  | .ok st => k st t.levels
  | .abort e st => ⟨.abort e st, t.levels⟩

/-- Record the value `stackpos` has just been given. -/
def note (st : GenState) (levels : List Int) : List Int :=
  levels ++ [st.stackpos]

/-- Function `push_imm32`, recording the new `stackpos`. -/
def push_imm32_tracked (imm : Int) (st : GenState) (levels : List Int) : Tracked :=
  ⟨.ok (push_imm32 imm st), note (push_imm32 imm st) levels⟩

/-- Function `push`, recording the new `stackpos`. -/
def push_tracked (reg : Reg) (st : GenState) (levels : List Int) : Tracked :=
  ⟨.ok (push reg st), note (push reg st) levels⟩

/-- Function `pop`, recording the new `stackpos`, which is assigned before the
assertion is checked. -/
def pop_tracked (reg : Reg) (st : GenState) (levels : List Int) : Tracked :=
  ⟨pop reg st, note (pop reg st).state levels⟩

/-- Function `gen_lval`, with the record. -/
def gen_lval_tracked (node : Node) (idents : Map) (st : GenState) (levels : List Int) :
    Tracked :=
  match node with
  | .ident name =>
    let offset : Int := (map_get idents name).getD 0
    push_tracked .rax (emit (.lea_rax_rbp offset) st) levels
  | _ => ⟨.abort .not_an_identifier st, levels⟩

/-- The loop of pops of the `ND_CALL` case, with the record. -/
def pop_regs_tracked : List Reg → GenState → List Int → Tracked
  | [], st, levels => ⟨.ok st, levels⟩
  | r :: rs, st, levels => (pop_tracked r st levels).andThen (pop_regs_tracked rs)

/-- The part of the `ND_CALL` case that follows the evaluation of the
arguments, with the record. -/
def call_tail_tracked (name : String) (nargs nregargs nstackargs orig_stackpos : Int)
    (align_stack : Bool) (st : GenState) (levels : List Int) : Tracked :=
  (pop_regs_tracked (regs.take nregargs.toNat) st levels).andThen fun st levels =>
    let st := emit .xor_rax_rax st
    let st : GenState :=
      { emit (.call name) st with
        calls := st.calls ++ [⟨nargs, orig_stackpos, align_stack, st.stackpos⟩] }
    let st1 : GenState :=
      if 0 < nstackargs then
        { emit (.sub_rsp (8 * nstackargs)) st with stackpos := st.stackpos - 8 * nstackargs }
      else st
    let levels1 : List Int := if 0 < nstackargs then note st1 levels else levels
    let st2 : GenState :=
      if align_stack then
        { emit (.add_rsp 8) st1 with stackpos := st1.stackpos - 8 }
      else st1
    let levels2 : List Int := if align_stack then note st2 levels1 else levels1
    if st2.stackpos = orig_stackpos then push_tracked .rax st2 levels2
    else ⟨.abort .assert_call st2, levels2⟩

mutual
/-- Function `gen`, with the record of the values of `stackpos`. -/
def gen_tracked (node : Node) (idents : Map) (st : GenState) (levels : List Int) : Tracked :=
  match node with
  | .num val => push_imm32_tracked val st levels
  | .ident name =>
    (gen_lval_tracked (.ident name) idents st levels).andThen fun st levels =>
    (pop_tracked .rax st levels).andThen fun st levels =>
    push_tracked .rax (emit .mov_rax_mem st) levels
  | .call name args =>
    let nargs : Int := args.length
    let nregargs : Int := if nargs ≤ 6 then nargs else 6
    let nstackargs : Int := nargs - nregargs
    let orig_stackpos : Int := st.stackpos
    let align_stack : Bool := decide (Int.tmod (st.stackpos + 8 * nstackargs) 16 ≠ 0)
    let st1 : GenState :=
      if align_stack then
        { emit (.sub_rsp 8) st with stackpos := st.stackpos + 8 }
      else st
    let levels1 : List Int := if align_stack then note st1 levels else levels
    (gen_args_tracked args idents st1 levels1).andThen
      (call_tail_tracked name nargs nregargs nstackargs orig_stackpos align_stack)
  | .binop .assign lhs rhs =>
    (gen_lval_tracked lhs idents st levels).andThen fun st levels =>
    (gen_tracked rhs idents st levels).andThen fun st levels =>
    (pop_tracked .rdi st levels).andThen fun st levels =>
    (pop_tracked .rax st levels).andThen fun st levels =>
    push_tracked .rdi (emit .mov_mem_rdi st) levels
  | .binop kind lhs rhs =>
    (gen_tracked lhs idents st levels).andThen fun st levels =>
    (gen_tracked rhs idents st levels).andThen fun st levels =>
    (pop_tracked .rdi st levels).andThen fun st levels =>
    (pop_tracked .rax st levels).andThen fun st levels =>
    match binop_lines kind with
    | some lines => push_tracked .rax (emit_all lines st) levels
    | none => ⟨.abort (.unexpected_operator kind.ty) st, levels⟩
/-- The loop over the arguments, last argument first, with the record. -/
def gen_args_tracked (args : List Node) (idents : Map) (st : GenState) (levels : List Int) :
    Tracked :=
  match args with
  | [] => ⟨.ok st, levels⟩
  | a :: rest =>
    (gen_args_tracked rest idents st levels).andThen (gen_tracked a idents)
end

/-- The tracked generator agrees with `gen` and records only values at or
above the entry value: the statement proved by induction. -/
def tracked_at (idents : Map) (node : Node) : Prop :=
  ∀ (st : GenState) (lv : List Int), 0 ≤ st.stackpos →
    ∃ new, gen_tracked node idents st lv = ⟨gen node idents st, lv ++ new⟩ ∧
      ∀ v ∈ new, st.stackpos ≤ v

/-! ## Runs across calls to external functions -/

/-- Run emitted lines in order, a `call` line included: the function called
returns with `ret name` in `rax` and with the stack pointer, the stack and the
other registers as they were at the call, as a function following the calling
convention may. The other lines are those of `step`. -/
def run_ext (ret : String → Nat) : List Instr → Machine → Option Machine
  | [], m => some m
  | .call name :: rest, m => run_ext ret rest { m with rax := ret name }
  | i :: rest, m => (step i m).bind (run_ext ret rest)

/-- The call `h(f(1, 2, 3, 4, 5, 6, 7), 2)`. -/
def call_h_f7_2 : Node := .call "h" [call_f_7, .num 2]

/-! ## Call lines and call sites -/

/-- Greatest value of a C `int` (32 bits). -/
def INT_MAX : Int := 2147483647

/-- The value a 32-bit `int` holds after an addition, subtraction or
multiplication whose exact result is `z`. Within the range of `int` it is `z`.
Beyond it C leaves the result undefined; the value taken here is the one the
`add`, `sub` or `imul` instruction of the compiled code leaves: `z` modulo
`2^32`, in the range from `-2^31` to `2^31 - 1`. -/
def wrap32 (z : Int) : Int := (z + 2147483648) % 4294967296 - 2147483648

/-- A `struct Node` as `gen` finds it in memory: the fields `gen` and
`gen_lval` read, whatever the kind. `lhs` and `rhs` are pointers and may be
null (`none`), as in a node built by `new_node` for a kind without children;
`args` is read for kind `ND_CALL` only and is the vector the parser builds for
a call. -/
inductive RawNode where
  | mk (ty : Int) (val : Int) (name : String) (args : List RawNode)
      (lhs rhs : Option RawNode)

/-- Field `ty`. -/
def RawNode.ty : RawNode → Int
  | .mk ty _ _ _ _ _ => ty

/-- Field `name`. -/
def RawNode.name : RawNode → String
  | .mk _ _ name _ _ _ => name

/-- Field `lhs`. -/
def RawNode.lhs : RawNode → Option RawNode
  | .mk _ _ _ _ lhs _ => lhs

/-- Field `rhs`. -/
def RawNode.rhs : RawNode → Option RawNode
  | .mk _ _ _ _ _ rhs => rhs

/-- How a piece of the generator ends: it returns, or the process stops on
`exit(1)` or on a failing `assert`, or the process reads through a null
pointer and is killed. The state is the one reached at that moment. -/
inductive Outcome where
  | returned (st : GenState)
  | stopped (err : GenError) (st : GenState)
  | null_dereference (st : GenState)
  deriving DecidableEq, Repr

/-- Sequencing: run `k` after a piece that returned. -/
def Outcome.andThen (r : Outcome) (k : GenState → Outcome) : Outcome :=
  match r with
  | .returned st => k st
  | .stopped e st => .stopped e st
  | .null_dereference st => .null_dereference st

/-- The state in which a piece of the generator ended. -/
def Outcome.state : Outcome → GenState
  | .returned st => st
  | .stopped _ st => st
  | .null_dereference st => st

/-- Function `push_imm32`, with `stackpos += 8` in 32 bits. -/
def push_imm32_raw (imm : Int) (st : GenState) : GenState :=
  { emit (.push_imm imm) st with stackpos := wrap32 (st.stackpos + 8) }

/-- Function `push`, with `stackpos += 8` in 32 bits. -/
def push_raw (reg : Reg) (st : GenState) : GenState :=
  { emit (.push reg) st with stackpos := wrap32 (st.stackpos + 8) }

/-- Function `pop`, with `stackpos -= 8` in 32 bits: the line is printed and
`stackpos` lowered before the assertion is checked. -/
def pop_raw (reg : Reg) (st : GenState) : Outcome :=
  let st1 : GenState := { emit (.pop reg) st with stackpos := wrap32 (st.stackpos - 8) }
  if 0 ≤ st1.stackpos then .returned st1 else .stopped .assert_pop st1

/-- Function `gen_lval` on a pointer: `node->ty` is read first, through a null
pointer too. An absent key gives a null pointer, which the cast turns into
offset 0. -/
def gen_lval_raw (node : Option RawNode) (idents : Map) (st : GenState) : Outcome :=
  match node with
  | none => .null_dereference st
  | some n =>
    if n.ty ≠ ND_IDENT then .stopped .not_an_identifier st
    else
      let offset : Int := (map_get idents n.name).getD 0
      .returned (push_raw .rax (emit (.lea_rax_rbp offset) st))

/-- The loop `for (int i = 0; i < nregargs; i++) pop(regs[i]);`, given the
registers `regs[0..nregargs-1]`. -/
def pop_regs_raw : List Reg → GenState → Outcome
  | [], st => .returned st
  | r :: rs, st => (pop_raw r st).andThen (pop_regs_raw rs)

/-- Second `switch` of `gen` on `node->ty`: the lines of a binary operator, or
`none` in the `default` case. -/
def binop_lines_raw (ty : Int) : Option (List Instr) :=
  if ty = 43 then some [.add_rax_rdi]
  else if ty = 45 then some [.sub_rax_rdi]
  else if ty = 42 then some [.mul_rdi]
  else if ty = 47 then some [.xor_rdx_rdx, .div_rdi]
  else if ty = ND_EQUAL then some [.cmp_rax_rdi, .sete_al, .movzb_rax_al]
  else if ty = ND_NOTEQUAL then some [.cmp_rax_rdi, .setne_al, .movzb_rax_al]
  else none

/-- The part of the `ND_CALL` case that follows the evaluation of the
arguments, in 32 bits. -/
def call_tail_raw (name : String) (nargs nregargs nstackargs orig_stackpos : Int)
    (align_stack : Bool) (st : GenState) : Outcome :=
  (pop_regs_raw (regs.take nregargs.toNat) st).andThen fun st =>
    let st := emit .xor_rax_rax st
    let st : GenState :=
      { emit (.call name) st with
        calls := st.calls ++ [⟨nargs, orig_stackpos, align_stack, st.stackpos⟩] }
    let st : GenState :=
      if 0 < nstackargs then
        { emit (.sub_rsp (wrap32 (8 * nstackargs))) st with
          stackpos := wrap32 (st.stackpos - wrap32 (8 * nstackargs)) }
      else st
    let st : GenState :=
      if align_stack then
        { emit (.add_rsp 8) st with stackpos := wrap32 (st.stackpos - 8) }
      else st
    if st.stackpos = orig_stackpos then .returned (push_raw .rax st)
    else .stopped .assert_call st

mutual
/-- Function `gen` on a node in memory. The first `switch` is on `node->ty`;
a kind that is none of `ND_NUM`, `ND_IDENT`, `ND_CALL` and `'='` goes on to
`gen(node->lhs, idents)`, and the second `switch` is reached after the two
pops. -/
def gen_raw (node : RawNode) (idents : Map) (st : GenState) : Outcome :=
  match node with
  | .mk ty val name args lhs rhs =>
    if ty = ND_NUM then .returned (push_imm32_raw val st)
    else if ty = ND_IDENT then
      (gen_lval_raw (some (.mk ty val name args lhs rhs)) idents st).andThen fun st =>
      (pop_raw .rax st).andThen fun st =>
      .returned (push_raw .rax (emit .mov_rax_mem st))
    else if ty = ND_CALL then
      let nargs : Int := args.length
      let nregargs : Int := if nargs ≤ 6 then nargs else 6
      let nstackargs : Int := nargs - nregargs
      let orig_stackpos : Int := st.stackpos
      let align_stack : Bool :=
        decide (Int.tmod (wrap32 (st.stackpos + wrap32 (8 * nstackargs))) 16 ≠ 0)
      let st : GenState :=
        if align_stack then
          { emit (.sub_rsp 8) st with stackpos := wrap32 (st.stackpos + 8) }
        else st
      (gen_raw_args args idents st).andThen
        (call_tail_raw name nargs nregargs nstackargs orig_stackpos align_stack)
    else if ty = 61 then
      (gen_lval_raw lhs idents st).andThen fun st =>
      (gen_raw_ptr rhs idents st).andThen fun st =>
      (pop_raw .rdi st).andThen fun st =>
      (pop_raw .rax st).andThen fun st =>
      .returned (push_raw .rdi (emit .mov_mem_rdi st))
    else
      (gen_raw_ptr lhs idents st).andThen fun st =>
      (gen_raw_ptr rhs idents st).andThen fun st =>
      (pop_raw .rdi st).andThen fun st =>
      (pop_raw .rax st).andThen fun st =>
      match binop_lines_raw ty with
      | some lines => .returned (push_raw .rax (emit_all lines st))
      | none => .stopped (.unexpected_operator ty) st
/-- The call `gen(p, idents)` for a pointer `p`: `gen` starts by reading
`node->ty`, so a null `p` ends the run there. -/
def gen_raw_ptr (node : Option RawNode) (idents : Map) (st : GenState) : Outcome :=
  match node with
  | none => .null_dereference st
  | some n => gen_raw n idents st
/-- The loop `for (int i = nargs - 1; i >= 0; i--) gen(node->args->data[i], idents);`
over the vector `args`: the last element is generated first. -/
def gen_raw_args (args : List RawNode) (idents : Map) (st : GenState) : Outcome :=
  match args with
  | [] => .returned st
  | a :: rest => (gen_raw_args rest idents st).andThen (gen_raw a idents)
end

mutual
/-- The node in memory for a node of the tree: the fields of its kind are
set, the others are null or empty. -/
def Node.raw : Node → RawNode
  | .num val => .mk ND_NUM val "" [] none none
  | .ident name => .mk ND_IDENT 0 name [] none none
  | .call name args => .mk ND_CALL 0 name (Node.raw_all args) none none
  | .binop kind lhs rhs => .mk kind.ty 0 "" [] (some lhs.raw) (some rhs.raw)
/-- The nodes in memory for a vector of nodes. -/
def Node.raw_all : List Node → List RawNode
  | [] => []
  | a :: rest => a.raw :: Node.raw_all rest
end

mutual
/-- The nodes on which the failure characterisation says the generator
returns: a `ND_NUM`, a `ND_IDENT`, a `ND_CALL` whose arguments are accepted,
an `'='` whose `lhs` is a `ND_IDENT` node and whose `rhs` is accepted, or a
node of kind `'+'`, `'-'`, `'*'`, `'/'`, `ND_EQUAL` or `ND_NOTEQUAL` whose two
operands are accepted. -/
def raw_accepted : RawNode → Bool
  | .mk ty _ _ args lhs rhs =>
    if ty = ND_NUM then true
    else if ty = ND_IDENT then true
    else if ty = ND_CALL then raw_accepted_all args
    else if ty = 61 then
      (match lhs with
        | some l => decide (l.ty = ND_IDENT)
        | none => false) && raw_accepted_ptr rhs
    else
      (decide (ty = 43) || decide (ty = 45) || decide (ty = 42) || decide (ty = 47)
        || decide (ty = ND_EQUAL) || decide (ty = ND_NOTEQUAL))
      && (raw_accepted_ptr lhs && raw_accepted_ptr rhs)
/-- The pointer is not null and the node is accepted. -/
def raw_accepted_ptr : Option RawNode → Bool
  | none => false
  | some n => raw_accepted n
/-- Every node of a vector is accepted. -/
def raw_accepted_all : List RawNode → Bool
  | [] => true
  | a :: rest => raw_accepted a && raw_accepted_all rest
end

mutual
/-- A bound on how far `stackpos` rises above its value at entry while `gen`
works on the node: 8 per value pending on the stack and 8 per pending
alignment of a call. -/
def rise : RawNode → Int
  | .mk ty _ _ args lhs rhs =>
    if ty = ND_NUM then 8
    else if ty = ND_IDENT then 8
    else if ty = ND_CALL then 8 + rise_args args
    else if ty = 61 then 8 + rise_ptr rhs
    else max (rise_ptr lhs) (8 + rise_ptr rhs)
/-- The bound for a pointer: nothing is done through a null pointer. -/
def rise_ptr : Option RawNode → Int
  | none => 0
  | some n => rise n
/-- The bound for the loop over the arguments of a call: an argument is
generated above the values of the arguments after it. -/
def rise_args : List RawNode → Int
  | [] => 0
  | a :: rest => max (rise_args rest) (8 * (rest.length : Int) + rise a)
end

/-- The outcome of `gen` on a tree, as an outcome of `gen` on nodes in memory. -/
def Outcome.of_result : Result → Outcome
  | .ok st => .returned st
  | .abort e st => .stopped e st

mutual
theorem Node.induct_aux {P : Node → Prop} (hnum : ∀ v, P (.num v)) (hident : ∀ x, P (.ident x))
    (hcall : ∀ f args, (∀ a ∈ args, P a) → P (.call f args))
    (hbin : ∀ k l r, P l → P r → P (.binop k l r)) : ∀ n, P n
  | .num v => hnum v
  | .ident x => hident x
  | .call f args => hcall f args (Node.induct_list hnum hident hcall hbin args)
  | .binop k l r => hbin k l r (Node.induct_aux hnum hident hcall hbin l)
      (Node.induct_aux hnum hident hcall hbin r)
theorem Node.induct_list {P : Node → Prop} (hnum : ∀ v, P (.num v)) (hident : ∀ x, P (.ident x))
    (hcall : ∀ f args, (∀ a ∈ args, P a) → P (.call f args))
    (hbin : ∀ k l r, P l → P r → P (.binop k l r)) : ∀ args : List Node, ∀ a ∈ args, P a
  | [] => fun _ h => absurd h (List.not_mem_nil _)
  | b :: rest => fun a h => by
    rcases List.mem_cons.1 h with h | h
    · subst h; exact Node.induct_aux hnum hident hcall hbin a
    · exact Node.induct_list hnum hident hcall hbin rest a h
end

theorem Result.ok_andThen (st : GenState) (k : GenState → Result) :
    (Result.ok st).andThen k = k st := rfl

theorem Result.abort_andThen (e : GenError) (st : GenState) (k : GenState → Result) :
    (Result.abort e st).andThen k = .abort e st := rfl

theorem gen_num (v : Int) (idents : Map) (st : GenState) :
    gen (.num v) idents st = .ok (push_imm32 v st) := by
  simp [gen]
theorem gen_args_cons (a : Node) (rest : List Node) (idents : Map) (st : GenState) :
    gen_args (a :: rest) idents st = (gen_args rest idents st).andThen (gen a idents) := by
  simp [gen_args]
theorem gen_assign (l r : Node) (idents : Map) (st : GenState) :
    gen (.binop .assign l r) idents st = 
    (gen_lval l idents st).andThen fun st =>
    (gen r idents st).andThen fun st =>
    (pop .rdi st).andThen fun st =>
    (pop .rax st).andThen fun st =>
    .ok (push .rdi (emit .mov_mem_rdi st)) := by
  simp [gen]
theorem gen_binop (k : BinKind) (hk : k ≠ .assign) (l r : Node) (idents : Map) (st : GenState) :
    gen (.binop k l r) idents st = 
    (gen l idents st).andThen fun st =>
    (gen r idents st).andThen fun st =>
    (pop .rdi st).andThen fun st =>
    (pop .rax st).andThen fun st =>
    match binop_lines k with
    | some lines => .ok (push .rax (emit_all lines st))
    | none => .abort (.unexpected_operator k.ty) st := by
  cases k <;> simp [gen] at hk ⊢

theorem pop_of_le (r : Reg) (st : GenState) (h : 8 ≤ st.stackpos) :
    pop r st = .ok ⟨st.stackpos - 8, st.out ++ [.pop r], st.calls⟩ := by
  have h0 : (0 : Int) ≤ st.stackpos - 8 := by omega
  simp [pop, emit, h0]

theorem pop_regs_of_le : ∀ (rs : List Reg) (st : GenState), 8 * (rs.length : Int) ≤ st.stackpos →
    pop_regs rs st = .ok ⟨st.stackpos - 8 * rs.length, st.out ++ rs.map Instr.pop, st.calls⟩
  | [], st, _ => by simp [pop_regs]
  | r :: rs, st, h => by
    have h8 : 8 ≤ st.stackpos := by simp only [List.length_cons, Nat.cast_add, Nat.cast_one] at h; omega
    rw [pop_regs, pop_of_le r st h8, Result.ok_andThen, pop_regs_of_le rs]
    · simp only [List.length_cons, Nat.cast_add, Nat.cast_one, List.map_cons, List.append_assoc,
        List.singleton_append, Result.ok.injEq, GenState.mk.injEq, and_true]
      omega
    · simp only [List.length_cons, Nat.cast_add, Nat.cast_one] at h ⊢; omega

theorem length_take_regs (n : Nat) :
    (((regs.take (nregargs_of (n : Int)).toNat).length : Nat) : Int) = nregargs_of n := by
  unfold nregargs_of
  split
  · have : (n : Int).toNat ≤ 6 := by omega
    simp [regs, List.length_take]; omega
  · simp [regs]

theorem call_tail_spec (name : String) (n : Nat) (orig : Int) (align : Bool) (st : GenState)
    (h0 : 0 ≤ orig) (hs : st.stackpos = orig + (if align then 8 else 0) + 8 * (n : Int)) :
    call_tail name n (nregargs_of n) (n - nregargs_of n) orig align st
      = .ok ⟨orig + 8, st.out ++ call_tail_lines name n align,
          st.calls ++ [⟨n, orig, align, orig + (if align then 8 else 0)
            + 8 * ((n : Int) - nregargs_of n)⟩]⟩ := by
  have hlen := length_take_regs n
  have hr : nregargs_of (n : Int) ≤ n ∧ 0 ≤ nregargs_of (n : Int) := by
    unfold nregargs_of; split <;> omega
  have ha : (0 : Int) ≤ (if align then 8 else 0) := by split <;> omega
  unfold call_tail
  rw [pop_regs_of_le _ _ (by rw [hlen, hs]; omega)]
  simp only [Result.ok_andThen, Result.abort_andThen, hlen, emit, call_tail_lines, push]
  by_cases hn : 0 < (n : Int) - nregargs_of n <;> cases align <;>
    simp only [Bool.false_eq_true, if_false, if_true, add_zero] at hs <;>
    simp [hn] <;> rw [if_pos (by omega)] <;> simp <;> omega

theorem gen_call (name : String) (args : List Node) (idents : Map) (st : GenState) :
    gen (.call name args) idents st =
      (gen_args args idents (enter_call (align_of st.stackpos args.length) st)).andThen
        (call_tail name args.length (nregargs_of args.length)
          ((args.length : Int) - nregargs_of args.length) st.stackpos
          (align_of st.stackpos args.length)) := by
  rw [gen]; rfl

theorem enter_call_stackpos (align : Bool) (st : GenState) :
    (enter_call align st).stackpos = st.stackpos + (if align then 8 else 0) := by
  cases align <;> simp [enter_call, emit]

theorem pop_pop (st : GenState) (k : GenState → Result) (h : 16 ≤ st.stackpos) :
    ((pop .rdi st).andThen fun st1 => (pop .rax st1).andThen k)
      = k ⟨st.stackpos - 16, st.out ++ [.pop .rdi, .pop .rax], st.calls⟩ := by
  rw [pop_of_le _ _ (by omega)]
  simp only [Result.ok_andThen, Result.abort_andThen]
  rw [pop_of_le _ _ (by simp only; omega)]
  simp only [Result.ok_andThen, Result.abort_andThen, List.append_assoc, List.singleton_append]
  congr 2
  omega

theorem binop_lines_isSome (k : BinKind) (hk : k ≠ .assign) :
    (binop_lines k).isSome = listed_binop k := by
  cases k <;> simp [binop_lines, listed_binop] at hk ⊢

theorem gen_ident (name : String) (idents : Map) (st : GenState) (h : 0 ≤ st.stackpos) :
    gen (.ident name) idents st = .ok ⟨st.stackpos + 8,
      st.out ++ [.lea_rax_rbp ((map_get idents name).getD 0), .push .rax, .pop .rax,
        .mov_rax_mem, .push .rax], st.calls⟩ := by
  simp only [gen, gen_lval, Result.ok_andThen, Result.abort_andThen]
  rw [pop_of_le _ _ (by simp [push, emit]; omega)]
  simp [push, emit, Result.ok_andThen]

theorem gen_args_outcome (idents : Map) : ∀ (args : List Node), (∀ a ∈ args, outcome_at idents a) →
    ∀ st : GenState, 0 ≤ st.stackpos →
    (accepted_all args = true →
      ∃ st1, gen_args args idents st = .ok st1 ∧ st1.stackpos = st.stackpos + 8 * (args.length : Int)) ∧
    (accepted_all args = false →
      ∃ e st1, gen_args args idents st = .abort e st1 ∧ e.is_exit = true)
  | [], _, st, _ => by simp [gen_args, accepted_all]
  | a :: rest, ih, st, h0 => by
    have hrest := gen_args_outcome idents rest (fun b hb => ih b (List.mem_cons_of_mem _ hb)) st h0
    have ha := ih a (List.mem_cons_self _ _)
    rw [gen_args_cons]
    cases hr : accepted_all rest
    · obtain ⟨e, st1, h1, he⟩ := hrest.2 hr
      simp [accepted_all, hr, h1, Result.ok_andThen, Result.abort_andThen, he]
    · obtain ⟨st1, h1, hs1⟩ := hrest.1 hr
      have ha1 := ha st1 (by omega)
      simp only [accepted_all, hr, h1, Result.ok_andThen, Result.abort_andThen, Bool.and_true, List.length_cons]
      refine ⟨fun hacc => ?_, fun hacc => ha1.2 hacc⟩
      obtain ⟨st2, h2, hs2⟩ := ha1.1 hacc
      exact ⟨st2, h2, by rw [hs2, hs1]; push_cast; ring⟩

theorem gen_outcome (idents : Map) (node : Node) : outcome_at idents node := by
  induction node using Node.induct_aux with
  | hnum v => intro st _; simp [gen_num, accepted, push_imm32]
  | hident x => intro st h; simp [gen_ident _ _ _ h, accepted]
  | hcall f args ih =>
    intro st h0
    rw [gen_call]
    have hpad : (0 : Int) ≤ (if align_of st.stackpos args.length then 8 else 0) := by
      split <;> omega
    have hargs := gen_args_outcome idents args ih (enter_call (align_of st.stackpos args.length) st)
      (by rw [enter_call_stackpos]; omega)
    simp only [accepted]
    cases hacc : accepted_all args
    · obtain ⟨e, st1, h1, he⟩ := hargs.2 hacc
      simp [h1, Result.ok_andThen, Result.abort_andThen, he]
    · obtain ⟨st1, h1, hs1⟩ := hargs.1 hacc
      rw [enter_call_stackpos] at hs1
      simp [h1, Result.ok_andThen, Result.abort_andThen, call_tail_spec f args.length st.stackpos _ st1 h0 hs1]
  | hbin k l r ihl ihr =>
    intro st h0
    by_cases hk : k = .assign
    · subst hk
      rw [gen_assign]
      cases l with
      | ident x =>
        simp only [gen_lval, Result.ok_andThen, Result.abort_andThen, accepted]
        have hr := ihr (push .rax (emit (.lea_rax_rbp ((map_get idents x).getD 0)) st))
          (by simp [push, emit]; omega)
        cases hacc : accepted r
        · obtain ⟨e, st1, h1, he⟩ := hr.2 hacc
          simp [h1, Result.ok_andThen, Result.abort_andThen, he]
        · obtain ⟨st1, h1, hs1⟩ := hr.1 hacc
          simp only [push, emit] at hs1
          rw [h1]
          simp only [Result.ok_andThen, Result.abort_andThen]
          rw [pop_pop _ _ (by omega)]
          simp [push, emit]; omega
      | num v => simp [gen_lval, Result.ok_andThen, Result.abort_andThen, accepted, GenError.is_exit]
      | call f args => simp [gen_lval, Result.ok_andThen, Result.abort_andThen, accepted, GenError.is_exit]
      | binop k2 l2 r2 => simp [gen_lval, Result.ok_andThen, Result.abort_andThen, accepted, GenError.is_exit]
    · rw [gen_binop k hk]
      have hacc : accepted (.binop k l r) = (listed_binop k && (accepted l && accepted r)) := by
        cases k <;> simp [accepted] at hk ⊢
      rw [hacc]
      cases hl : accepted l
      · obtain ⟨e, st1, h1, he⟩ := (ihl st h0).2 hl
        simp [h1, Result.ok_andThen, Result.abort_andThen, he]
      · obtain ⟨st1, h1, hs1⟩ := (ihl st h0).1 hl
        rw [h1]
        simp only [Result.ok_andThen, Result.abort_andThen]
        cases hr : accepted r
        · obtain ⟨e, st2, h2, he⟩ := (ihr st1 (by omega)).2 hr
          simp [h2, Result.ok_andThen, Result.abort_andThen, he]
        · obtain ⟨st2, h2, hs2⟩ := (ihr st1 (by omega)).1 hr
          rw [h2]
          simp only [Result.ok_andThen, Result.abort_andThen]
          rw [pop_pop _ _ (by omega)]
          have hsome := binop_lines_isSome k hk
          cases hb : binop_lines k with
          | none =>
            rw [hb] at hsome
            simp [← hsome, GenError.is_exit]
          | some lines =>
            rw [hb] at hsome
            simp [← hsome, push, emit_all]; omega

theorem gen_ok_stackpos {node : Node} {idents : Map} {st st1 : GenState} (h0 : 0 ≤ st.stackpos)
    (h : gen node idents st = .ok st1) : st1.stackpos = st.stackpos + 8 := by
  have ho := gen_outcome idents node st h0
  cases hacc : accepted node
  · obtain ⟨e, st2, h2, _⟩ := ho.2 hacc
    rw [h] at h2; cases h2
  · obtain ⟨st2, h2, hs⟩ := ho.1 hacc
    rw [h] at h2; cases h2; exact hs

theorem gen_args_ok_stackpos {args : List Node} {idents : Map} {st st1 : GenState}
    (h0 : 0 ≤ st.stackpos) (h : gen_args args idents st = .ok st1) :
    st1.stackpos = st.stackpos + 8 * (args.length : Int) := by
  have ho := gen_args_outcome idents args (fun a _ => gen_outcome idents a) st h0
  cases hacc : accepted_all args
  · obtain ⟨e, st2, h2, _⟩ := ho.2 hacc
    rw [h] at h2; cases h2
  · obtain ⟨st2, h2, hs⟩ := ho.1 hacc
    rw [h] at h2; cases h2; exact hs

theorem nstackargs_eq (n : Nat) : (n : Int) - nregargs_of n = max 0 ((n : Int) - 6) := by
  unfold nregargs_of; split <;> omega

theorem pop_under (o : List Instr) (c : List CallSite) (r : Reg) (st : GenState) :
    pop r (st.under o c) = (pop r st).under o c := by
  unfold pop
  simp only [GenState.under, emit]
  split <;> simp [Result.under, GenState.under]

theorem andThen_under (o : List Instr) (c : List CallSite) (r : Result)
    (k k1 : GenState → Result) (h : ∀ st, k (st.under o c) = (k1 st).under o c) :
    (r.under o c).andThen k = (r.andThen k1).under o c := by
  cases r with
  | ok st => simp [Result.under, Result.ok_andThen, h]
  | abort e st => simp [Result.under, Result.abort_andThen]

theorem pop_regs_under (o : List Instr) (c : List CallSite) :
    ∀ (rs : List Reg) (st : GenState), pop_regs rs (st.under o c) = (pop_regs rs st).under o c
  | [], st => by simp [pop_regs, Result.under]
  | r :: rs, st => by
    rw [pop_regs, pop_regs, pop_under]
    exact andThen_under o c _ _ _ (pop_regs_under o c rs)

theorem gen_lval_under (o : List Instr) (c : List CallSite) (node : Node) (idents : Map)
    (st : GenState) : gen_lval node idents (st.under o c) = (gen_lval node idents st).under o c := by
  cases node <;> simp [gen_lval, Result.under, GenState.under, push, emit]

theorem call_tail_under (o : List Instr) (c : List CallSite) (name : String)
    (nargs nregargs nstackargs orig : Int) (align : Bool) (st : GenState) :
    call_tail name nargs nregargs nstackargs orig align (st.under o c)
      = (call_tail name nargs nregargs nstackargs orig align st).under o c := by
  unfold call_tail
  rw [pop_regs_under]
  apply andThen_under
  intro st1
  by_cases hn : 0 < nstackargs <;> cases align <;>
    simp only [GenState.under, emit, push, hn, if_true, if_false, Bool.false_eq_true] <;>
    split <;> simp [Result.under, GenState.under]

theorem enter_call_under (o : List Instr) (c : List CallSite) (align : Bool) (st : GenState) :
    enter_call align (st.under o c) = (enter_call align st).under o c := by
  cases align <;> simp [enter_call, GenState.under, emit]

theorem gen_args_under (idents : Map) : ∀ (args : List Node), (∀ a ∈ args, frame_at idents a) →
    ∀ (o : List Instr) (c : List CallSite) (st : GenState),
      gen_args args idents (st.under o c) = (gen_args args idents st).under o c
  | [], _, o, c, st => by simp [gen_args, Result.under]
  | a :: rest, ih, o, c, st => by
    rw [gen_args_cons, gen_args_cons,
      gen_args_under idents rest (fun b hb => ih b (List.mem_cons_of_mem _ hb))]
    exact andThen_under o c _ _ _ (ih a (List.mem_cons_self _ _) o c)

theorem gen_under (idents : Map) (node : Node) : frame_at idents node := by
  induction node using Node.induct_aux with
  | hnum v => intro o c st; simp [gen_num, push_imm32, emit, Result.under, GenState.under]
  | hident x =>
    intro o c st
    simp only [gen]
    rw [gen_lval_under]
    refine andThen_under o c _ _ _ fun st1 => ?_
    rw [pop_under]
    refine andThen_under o c _ _ _ fun st2 => ?_
    simp [push, emit, Result.under, GenState.under]
  | hcall f args ih =>
    intro o c st
    rw [gen_call, gen_call]
    have hs : (st.under o c).stackpos = st.stackpos := rfl
    rw [hs, enter_call_under, gen_args_under idents args ih]
    exact andThen_under o c _ _ _ fun st1 => call_tail_under o c _ _ _ _ _ _ st1
  | hbin k l r ihl ihr =>
    intro o c st
    by_cases hk : k = .assign
    · subst hk
      rw [gen_assign, gen_assign, gen_lval_under]
      refine andThen_under o c _ _ _ fun st1 => ?_
      rw [ihr]
      refine andThen_under o c _ _ _ fun st2 => ?_
      rw [pop_under]
      refine andThen_under o c _ _ _ fun st3 => ?_
      rw [pop_under]
      refine andThen_under o c _ _ _ fun st4 => ?_
      simp [push, emit, Result.under, GenState.under]
    · rw [gen_binop k hk, gen_binop k hk, ihl]
      refine andThen_under o c _ _ _ fun st1 => ?_
      rw [ihr]
      refine andThen_under o c _ _ _ fun st2 => ?_
      rw [pop_under]
      refine andThen_under o c _ _ _ fun st3 => ?_
      rw [pop_under]
      refine andThen_under o c _ _ _ fun st4 => ?_
      cases binop_lines k <;> simp [push, emit, emit_all, Result.under, GenState.under]

theorem run_append : ∀ (a b : List Instr) (m : Machine),
    run (a ++ b) m = (run a m).bind (run b)
  | [], b, m => by simp [run]
  | i :: a, b, m => by
    simp only [List.cons_append, run]
    cases step i m with
    | none => simp
    | some m1 => simpa using run_append a b m1

theorem bits64_cast (z : Int) : ((bits64 z : Nat) : Int) = z % 18446744073709551616 := by
  unfold bits64; omega

theorem bits64_wrap64 (z : Int) : bits64 (wrap64 z) = bits64 z := by
  unfold bits64 wrap64; omega

theorem wrap64_range (z : Int) :
    -9223372036854775808 ≤ wrap64 z ∧ wrap64 z < 9223372036854775808 := by
  unfold wrap64; omega

theorem bits64_add (a b : Int) : (bits64 a + bits64 b) % two64 = bits64 (wrap64 (a + b)) := by
  rw [bits64_wrap64]; unfold bits64 two64; omega

theorem bits64_sub (a b : Int) :
    (bits64 a + (two64 - bits64 b % two64)) % two64 = bits64 (wrap64 (a - b)) := by
  rw [bits64_wrap64]; unfold bits64 two64; omega

theorem bits64_mul (a b : Int) : (bits64 a * bits64 b) % two64 = bits64 (wrap64 (a * b)) := by
  rw [bits64_wrap64]
  apply Int.ofNat_inj.mp
  rw [bits64_cast]
  unfold two64
  push_cast
  rw [bits64_cast, bits64_cast, ← Int.mul_emod]

theorem bits64_inj (a b : Int)
    (ha : -9223372036854775808 ≤ a ∧ a < 9223372036854775808)
    (hb : -9223372036854775808 ≤ b ∧ b < 9223372036854775808) :
    bits64 a = bits64 b ↔ a = b := by
  unfold bits64; omega

theorem value_range (e : Node) (h : arith e = true) :
    -9223372036854775808 ≤ value e ∧ value e < 9223372036854775808 := by
  cases e with
  | num v => simp [arith] at h; simp only [value]; omega
  | ident x => simp [arith] at h
  | call f args => simp [arith] at h
  | binop k l r =>
    cases k <;> simp [arith] at h <;> simp only [value] <;>
      first
      | exact wrap64_range _
      | (split <;> omega)

theorem sete_movzb (x : Nat) (b : Nat) (hb : b < 256) : (x - x % 256 + b) % 256 = b := by
  omega

theorem op_sem (k : BinKind) (l r : Node) (hl : arith l = true) (hr : arith r = true)
    (hk : arith (.binop k l r) = true) (lines : List Instr) (hb : binop_lines k = some lines)
    (m : Machine) (rest : List Nat)
    (hm : m.stack = bits64 (value r) :: bits64 (value l) :: rest) :
    ∃ m1, run ([.pop .rdi, .pop .rax] ++ lines ++ [.push .rax]) m = some m1 ∧
      m1.stack = bits64 (value (.binop k l r)) :: rest ∧ m1.mem = m.mem ∧ m1.rbp = m.rbp := by
  have hrl := value_range l hl
  have hrr := value_range r hr
  cases k <;> simp [arith] at hk <;> simp [binop_lines] at hb <;> subst hb <;>
    simp [run, step, hm, Machine.set, Machine.get, value]
  · exact bits64_add _ _
  · exact bits64_sub _ _
  · exact bits64_mul _ _
  · by_cases hv : value l = value r
    · rw [if_pos (by rw [hv]), if_pos hv]
      exact sete_movzb _ 1 (by omega)
    · rw [if_neg (mt (bits64_inj _ _ hrl hrr).1 hv), if_neg hv]
      exact sete_movzb _ 0 (by omega)
  · by_cases hv : value l = value r
    · rw [if_pos (by rw [hv]), if_pos hv]
      exact sete_movzb _ 0 (by omega)
    · rw [if_neg (mt (bits64_inj _ _ hrl hrr).1 hv), if_neg hv]
      exact sete_movzb _ 1 (by omega)

theorem arith_binop {k : BinKind} {l r : Node} (h : arith (.binop k l r) = true) :
    k ≠ .assign ∧ arith l = true ∧ arith r = true ∧ ∃ lines, binop_lines k = some lines := by
  cases k <;> simp [arith] at h <;> simp [h, binop_lines]

theorem gen_sem (idents : Map) (e : Node) : sem_at idents e := by
  induction e using Node.induct_aux with
  | hnum v =>
    intro h st _
    refine ⟨[.push_imm v], by simp [gen_num, push_imm32, emit], fun m => ?_⟩
    simp only [arith, decide_eq_true_eq] at h
    simp [run, step, h, value]
  | hident x => intro h; simp [arith] at h
  | hcall f args _ => intro h; simp [arith] at h
  | hbin k l r ihl ihr =>
    intro h st h0
    obtain ⟨hk, hl, hr, lines, hb⟩ := arith_binop h
    obtain ⟨cl, hgl, hml⟩ := ihl hl st h0
    obtain ⟨cr, hgr, hmr⟩ := ihr hr ⟨st.stackpos + 8, st.out ++ cl, st.calls⟩ (by simp only; omega)
    refine ⟨cl ++ cr ++ ([.pop .rdi, .pop .rax] ++ lines ++ [.push .rax]), ?_, fun m => ?_⟩
    · rw [gen_binop k hk, hgl, Result.ok_andThen, hgr, Result.ok_andThen,
        pop_pop _ _ (by simp only; omega), hb]
      simp [push, emit, emit_all]
      omega
    · obtain ⟨m1, hr1, hs1, hmem1, hbp1⟩ := hml m
      obtain ⟨m2, hr2, hs2, hmem2, hbp2⟩ := hmr m1
      rw [hs1] at hs2
      obtain ⟨m3, hr3, hs3, hmem3, hbp3⟩ := op_sem k l r hl hr h lines hb m2 m.stack hs2
      refine ⟨m3, ?_, hs3, by rw [hmem3, hmem2, hmem1], by rw [hbp3, hbp2, hbp1]⟩
      rw [run_append, run_append, hr1, Option.some_bind, hr2, Option.some_bind, hr3]

theorem under_self (st : GenState) :
    (⟨st.stackpos, [], []⟩ : GenState).under st.out st.calls = st := by
  simp [GenState.under]

theorem gen_eq_under (node : Node) (idents : Map) (st : GenState) :
    gen node idents st = (gen node idents ⟨st.stackpos, [], []⟩).under st.out st.calls := by
  rw [← gen_under idents node, under_self]

theorem gen_ok_out {node : Node} {idents : Map} {st st1 : GenState}
    (h : gen node idents st = .ok st1) : st1.out = st.out ++ lines node idents st.stackpos := by
  rw [gen_eq_under] at h
  unfold lines
  cases h2 : gen node idents ⟨st.stackpos, [], []⟩ with
  | ok st2 => rw [h2] at h; simp only [Result.under, Result.ok.injEq] at h; rw [← h]; rfl
  | abort e st2 => rw [h2] at h; simp [Result.under] at h

theorem enter_call_out (align : Bool) (st : GenState) :
    (enter_call align st).out = st.out ++ (if align then [Instr.sub_rsp 8] else []) := by
  cases align <;> simp [enter_call, emit]

theorem lines_arith (idents : Map) (e : Node) (he : arith e = true) (s : Int) (h0 : 0 ≤ s)
    (m : Machine) :
    ∃ m1, run (lines e idents s) m = some m1 ∧
      m1.stack = bits64 (value e) :: m.stack ∧ m1.mem = m.mem ∧ m1.rbp = m.rbp := by
  obtain ⟨code, hg, hm⟩ := gen_sem idents e he ⟨s, [], []⟩ h0
  have hl : lines e idents s = code := by simp [lines, hg, Result.state]
  rw [hl]
  exact hm m

theorem run_args_lines (idents : Map) : ∀ (args : List Node), arith_all args = true →
    ∀ (s : Int), 0 ≤ s → ∀ m : Machine,
    ∃ m1, run (args_lines idents args s) m = some m1 ∧
      m1.stack = args.map (fun a => bits64 (value a)) ++ m.stack ∧
      m1.mem = m.mem ∧ m1.rbp = m.rbp
  | [], _, s, _, m => ⟨m, by simp [args_lines, run]⟩
  | a :: rest, h, s, h0, m => by
    simp only [arith_all, List.all_cons, Bool.and_eq_true] at h
    obtain ⟨m1, hr1, hs1, hm1, hb1⟩ := run_args_lines idents rest h.2 s h0 m
    obtain ⟨m2, hr2, hs2, hm2, hb2⟩ :=
      lines_arith idents a h.1 (s + 8 * (rest.length : Int)) (by omega) m1
    refine ⟨m2, ?_, by simp [hs2, hs1], by rw [hm2, hm1], by rw [hb2, hb1]⟩
    rw [args_lines, run_append, hr1, Option.some_bind, hr2]

theorem get_set (m : Machine) (r r1 : Reg) (v : Nat) :
    (m.set r v).get r1 = if r1 = r then v else m.get r1 := by
  cases r <;> cases r1 <;> simp [Machine.set, Machine.get]

theorem set_stack (m : Machine) (r : Reg) (v : Nat) : (m.set r v).stack = m.stack := by
  cases r <;> rfl

theorem set_mem (m : Machine) (r : Reg) (v : Nat) : (m.set r v).mem = m.mem := by
  cases r <;> rfl

theorem set_rbp (m : Machine) (r : Reg) (v : Nat) : (m.set r v).rbp = m.rbp := by
  cases r <;> rfl

theorem run_pops : ∀ (rs : List Reg) (vs rest : List Nat) (m : Machine), rs.Nodup →
    vs.length = rs.length → m.stack = vs ++ rest →
    ∃ m1, run (rs.map Instr.pop) m = some m1 ∧ rs.map m1.get = vs ∧ m1.stack = rest ∧
      m1.mem = m.mem ∧ m1.rbp = m.rbp ∧ ∀ r, r ∉ rs → m1.get r = m.get r
  | [], vs, rest, m, _, hl, hs => by
    have : vs = [] := List.length_eq_zero.1 (by simpa using hl)
    subst this
    exact ⟨m, by simp [run], rfl, by simpa using hs, rfl, rfl, fun _ _ => rfl⟩
  | r :: rs, [], rest, m, _, hl, _ => by simp at hl
  | r :: rs, v :: vs, rest, m, hnd, hl, hs => by
    rw [List.nodup_cons] at hnd
    obtain ⟨m1, hr1, hg1, hs1, hm1, hb1, hk1⟩ :=
      run_pops rs vs rest (({ m with stack := vs ++ rest } : Machine).set r v) hnd.2
        (by simpa using hl) (by rw [set_stack])
    refine ⟨m1, ?_, ?_, hs1, by rw [hm1, set_mem], by rw [hb1, set_rbp], fun r1 hr => ?_⟩
    · simp only [List.map_cons, run, step, hs, List.cons_append, Option.some_bind]
      exact hr1
    · rw [List.map_cons, hg1, hk1 r hnd.1, get_set]
      simp
    · rw [List.mem_cons, not_or] at hr
      rw [hk1 r1 hr.2, get_set, if_neg hr.1]
      cases r1 <;> rfl

theorem regs_take_nodup (k : Nat) : (regs.take k).Nodup :=
  List.Nodup.sublist (List.take_sublist k regs) (by decide)

theorem run_pops_xor (n : Nat) (vs rest : List Nat) (mb : Machine) (hl : vs.length = n)
    (hs : mb.stack = vs ++ rest) :
    ∃ m1, run ((regs.take (min n 6)).map Instr.pop ++ [Instr.xor_rax_rax]) mb = some m1 ∧
      (regs.take (min n 6)).map m1.get = vs.take 6 ∧ m1.stack = vs.drop 6 ++ rest := by
  have hsplit : mb.stack = vs.take 6 ++ (vs.drop 6 ++ rest) := by
    rw [hs, ← List.append_assoc, List.take_append_drop]
  obtain ⟨mc, hrc, hgc, hsc, _, _, _⟩ := run_pops (regs.take (min n 6)) _ _ mb
    (regs_take_nodup _) (by simp [regs, List.length_take]; omega) hsplit
  refine ⟨{ mc with rax := 0, zf := true }, ?_, ?_, hsc⟩
  · rw [run_append, hrc]
    simp [run, step]
  · rw [← hgc]
    apply List.map_congr_left
    intro r hr
    have hr2 : r ∈ regs := List.mem_of_mem_take hr
    cases r <;> first | rfl | (simp [regs] at hr2)

theorem run_call_head (idents : Map) (args : List Node) (ha : arith_all args = true) (s : Int)
    (h0 : 0 ≤ s) (m : Machine) :
    ∃ m1 cells, run (call_head_lines args idents s) m = some m1 ∧
      (regs.take (min args.length 6)).map m1.get = (args.take 6).map (fun a => bits64 (value a)) ∧
      m1.stack = (args.drop 6).map (fun a => bits64 (value a)) ++ cells ++ m.stack ∧
      cells.length = (if align_of s args.length then 1 else 0) := by
  have hpad : (0 : Int) ≤ (if align_of s args.length then 8 else 0) := by split <;> omega
  -- the optional alignment
  obtain ⟨ma, cells, hra, hsa, hca⟩ : ∃ ma cells,
      run (if align_of s args.length then [Instr.sub_rsp 8] else []) m = some ma ∧
      ma.stack = cells ++ m.stack ∧ cells.length = (if align_of s args.length then 1 else 0) := by
    cases align_of s args.length
    · exact ⟨m, [], by simp [run], by simp, by simp⟩
    · exact ⟨{ m with stack := [0] ++ m.stack }, [0], by simp [run, step], rfl, by simp⟩
  -- the arguments
  obtain ⟨mb, hrb, hsb, _, _⟩ := run_args_lines idents args ha
    (s + (if align_of s args.length then 8 else 0)) (by omega) ma
  -- the pops and `xor rax, rax`
  obtain ⟨mc, hrc, hgc, hsc⟩ := run_pops_xor args.length
    (args.map (fun a => bits64 (value a))) ma.stack mb (by simp) hsb
  refine ⟨mc, cells, ?_, by rw [hgc, List.map_take], ?_, hca⟩
  · unfold call_head_lines
    rw [List.append_assoc, run_append, run_append, hra, Option.some_bind, hrb,
      Option.some_bind, hrc]
  · rw [hsc, hsa, List.map_drop, List.append_assoc]

theorem drop_out (a b : List Instr) : (a ++ b).drop a.length = b := by
  simp

/-- C1: for an expression of the arithmetic subset, `gen` returns, and the
lines it printed, run on the machine, push the 64-bit value of the expression
on top of a stack that is otherwise unchanged. -/
theorem C1_arith_value_on_top (e : Node) (idents : Map) (st : GenState) (m : Machine)
    (he : arith e = true) (h0 : 0 ≤ st.stackpos) :
    ∃ st1 m1, gen e idents st = .ok st1 ∧
      run (st1.out.drop st.out.length) m = some m1 ∧
      m1.stack = bits64 (value e) :: m.stack := by
  obtain ⟨code, hg, hm⟩ := gen_sem idents e he st h0
  obtain ⟨m1, hr, hs, _, _⟩ := hm m
  exact ⟨_, m1, hg, by rw [drop_out]; exact hr, hs⟩

/-- C1 at `3 + 4 * 2`: the value pushed is 11. -/
theorem C1_witness_3_plus_4_times_2 :
    arith expr_3_plus_4_times_2 = true ∧ (0 : Int) ≤ gen_start.stackpos ∧
    ∃ st1 m1, gen expr_3_plus_4_times_2 [] gen_start = .ok st1 ∧
      run (st1.out.drop gen_start.out.length) machine0 = some m1 ∧
      m1.stack = [11] :=
  ⟨by decide, by decide,
    C1_arith_value_on_top expr_3_plus_4_times_2 [] gen_start machine0 (by decide) (by decide)⟩

/-- C4, the code at `f(1, 2, 3, 4, 5, 6, 7)` entered with `stackpos = 0`: the
line after `call f` is `sub rsp, 8`, which reserves 8 more bytes where the
stack argument had to be released; `stackpos` advances by 8 while the printed
lines lower `rsp` by 24. -/
theorem C4_stack_args_not_released :
    gen call_f_7 [] gen_start = .ok ⟨8,
      [.sub_rsp 8, .push_imm 7, .push_imm 6, .push_imm 5, .push_imm 4, .push_imm 3,
        .push_imm 2, .push_imm 1, .pop .rdi, .pop .rsi, .pop .rdx, .pop .rcx, .pop .r8,
        .pop .r9, .xor_rax_rax, .call "f", .sub_rsp 8, .add_rsp 8, .push .rax],
      [⟨7, 0, true, 16⟩]⟩ ∧
    (gen call_f_7 [] gen_start).state.stackpos - gen_start.stackpos = 8 ∧
    rsp_lowering (gen call_f_7 [] gen_start).state.out = 24 := by
  decide

theorem gen_assign_ok (x : String) (e : Node) (idents : Map) (st : GenState)
    (he : arith e = true) (h0 : 0 ≤ st.stackpos) :
    gen (.binop .assign (.ident x) e) idents st = .ok ⟨st.stackpos + 8,
      st.out ++ ([.lea_rax_rbp ((map_get idents x).getD 0), .push .rax]
        ++ lines e idents (st.stackpos + 8)
        ++ [.pop .rdi, .pop .rax, .mov_mem_rdi, .push .rdi]), st.calls⟩ := by
  obtain ⟨code, hg, _⟩ := gen_sem idents e he
    (push .rax (emit (.lea_rax_rbp ((map_get idents x).getD 0)) st))
    (by simp [push, emit]; omega)
  have hl := gen_ok_out hg
  simp only [push, emit, List.append_assoc, List.append_cancel_left_eq] at hl
  rw [gen_assign]
  simp only [gen_lval, Result.ok_andThen]
  rw [hg, Result.ok_andThen, pop_pop _ _ (by simp [push, emit]; omega)]
  simp [push, emit, hl]
  omega

theorem run_assign (e : Node) (idents : Map) (s : Int) (offset : Int)
    (he : arith e = true) (h0 : 0 ≤ s) (m : Machine) :
    ∃ m1, run ([.lea_rax_rbp offset, .push .rax] ++ lines e idents (s + 8)
        ++ [.pop .rdi, .pop .rax, .mov_mem_rdi, .push .rdi]) m = some m1 ∧
      m1.stack = bits64 (value e) :: m.stack ∧
      m1.mem (slot_addr m offset) = bits64 (value e) ∧
      (∀ a, a ≠ slot_addr m offset → m1.mem a = m.mem a) ∧ m1.rbp = m.rbp := by
  obtain ⟨m1, hr, hs, hm, hb⟩ := lines_arith idents e he (s + 8) (by omega)
    { m with rax := slot_addr m offset, stack := slot_addr m offset :: m.stack }
  refine ⟨{ m1 with
              rdi := bits64 (value e)
              rax := slot_addr m offset
              stack := bits64 (value e) :: m.stack
              mem := fun a => if a = slot_addr m offset then bits64 (value e) else m1.mem a },
    ?_, rfl, by simp, fun a ha => by simp [ha, hm], hb⟩
  rw [run_append, run_append]
  simp only [run, step, Option.some_bind, Machine.get, slot_addr] at hr ⊢
  rw [hr]
  simp [run, step, hs, Machine.set, Machine.get, slot_addr]

theorem run_ident (offset : Int) (m : Machine) :
    run [.lea_rax_rbp offset, .push .rax, .pop .rax, .mov_rax_mem, .push .rax] m
      = some { m with rax := m.mem (slot_addr m offset),
                      stack := m.mem (slot_addr m offset) :: m.stack } := by
  simp [run, step, Machine.set, Machine.get, slot_addr]

/-- C7: for `x` bound to `offset` and `e` in the arithmetic subset, `gen` on
`x = e` returns and prints the lvalue lines of `x`, the lines of `e`, `pop rdi`,
`pop rax`, `mov [rax], rdi`, `push rdi`; run on the machine these lines store
the value of `e` in the slot at `rbp + offset`, leave the slots that do not
overlap it alone and push that value; the lines `gen` then prints for the expression `x` push the
stored value again. -/
theorem C7_assignment_stores_and_yields (x : String) (offset : Int) (e : Node) (idents : Map)
    (st : GenState) (m : Machine)
    (hx : map_get idents x = some offset) (he : arith e = true) (h0 : 0 ≤ st.stackpos) :
    ∃ st1 st2 m1 m2,
      gen (.binop .assign (.ident x) e) idents st = .ok st1 ∧
      st1.out = st.out ++ ([.lea_rax_rbp offset, .push .rax]
        ++ lines e idents (st.stackpos + 8)
        ++ [.pop .rdi, .pop .rax, .mov_mem_rdi, .push .rdi]) ∧
      run (st1.out.drop st.out.length) m = some m1 ∧
      m1.mem (slot_addr m offset) = bits64 (value e) ∧
      (∀ a, a + 8 ≤ slot_addr m offset ∨ slot_addr m offset + 8 ≤ a → m1.mem a = m.mem a) ∧
      m1.stack = bits64 (value e) :: m.stack ∧
      gen (.ident x) idents st1 = .ok st2 ∧
      run (st2.out.drop st1.out.length) m1 = some m2 ∧
      m2.stack = bits64 (value e) :: m1.stack := by
  have hg := gen_assign_ok x e idents st he h0
  rw [hx, Option.getD_some] at hg
  obtain ⟨m1, hr, hs, hm, hoth, hb⟩ := run_assign e idents st.stackpos offset he h0 m
  have hg2 := gen_ident x idents _
    (show (0 : Int) ≤ (GenState.mk (st.stackpos + 8) (st.out ++ ([.lea_rax_rbp offset, .push .rax]
        ++ lines e idents (st.stackpos + 8)
        ++ [.pop .rdi, .pop .rax, .mov_mem_rdi, .push .rdi])) st.calls).stackpos by
      simp only; omega)
  rw [hx, Option.getD_some] at hg2
  refine ⟨_, _, m1, _, hg, rfl, by rw [drop_out]; exact hr, hm,
    fun a ha => hoth a (by omega), hs, hg2,
    by rw [drop_out]; exact run_ident offset m1, ?_⟩
  simp only [slot_addr, hb]
  rw [← slot_addr, hm]

/-- C7 at `a = 3 + 4 * 2` with `a` at offset -8; and the run of the lines of
`a = b = 5`, with `b` at offset -16, stores 5 in both slots and pushes 5. -/
theorem C7_witness_assign_a :
    map_get [("a", -8)] "a" = some (-8) ∧ arith expr_3_plus_4_times_2 = true ∧
    (run (gen assign_a_b_5 [("a", -8), ("b", -16)] gen_start).state.out machine0).map
      (fun m => (m.stack, m.mem (slot_addr machine0 (-8)), m.mem (slot_addr machine0 (-16))))
      = some ([5], 5, 5) ∧
    ∃ st1 st2 m1 m2,
      gen assign_a [("a", -8)] gen_start = .ok st1 ∧
      st1.out = gen_start.out ++ ([.lea_rax_rbp (-8), .push .rax]
        ++ lines expr_3_plus_4_times_2 [("a", -8)] (gen_start.stackpos + 8)
        ++ [.pop .rdi, .pop .rax, .mov_mem_rdi, .push .rdi]) ∧
      run (st1.out.drop gen_start.out.length) machine0 = some m1 ∧
      m1.mem (slot_addr machine0 (-8)) = 11 ∧
      (∀ a, a + 8 ≤ slot_addr machine0 (-8) ∨ slot_addr machine0 (-8) + 8 ≤ a →
        m1.mem a = machine0.mem a) ∧
      m1.stack = [11] ∧
      gen (.ident "a") [("a", -8)] st1 = .ok st2 ∧
      run (st2.out.drop st1.out.length) m1 = some m2 ∧
      m2.stack = 11 :: m1.stack :=
  ⟨by decide, by decide, by decide,
    C7_assignment_stores_and_yields "a" (-8) expr_3_plus_4_times_2 [("a", -8)] gen_start
      machine0 (by decide) (by decide) (by decide)⟩

/-- C8, the code at `(0 - 6) / 2`: the lines between the pops and the push are
`xor rdx, rdx` and `div rdi`, the unsigned division; the value pushed is
`(2^64 - 6) / 2 = 9223372036854775805`, while the signed quotient -3 has the
pattern `2^64 - 3`. -/
theorem C8_division_is_unsigned :
    gen expr_neg6_div_2 [] gen_start = .ok ⟨8,
      [.push_imm 0, .push_imm 6, .pop .rdi, .pop .rax, .sub_rax_rdi, .push .rax,
        .push_imm 2, .pop .rdi, .pop .rax, .xor_rdx_rdx, .div_rdi, .push .rax], []⟩ ∧
    (run (gen expr_neg6_div_2 [] gen_start).state.out machine0).map (fun m => m.stack)
      = some [9223372036854775805] ∧
    bits64 (Int.tdiv (0 - 6) 2) = 18446744073709551613 := by
  decide

/-- C9, counterexample: on `1 < 2`, whose operands `gen` accepts, `gen` prints
the operands and the two pops and stops with `An unexpected operator type 60`;
no `cmp` or set line is printed. -/
theorem C9_counterexample_less_than :
    accepted (.num 1) = true ∧ accepted (.num 2) = true ∧
    gen expr_1_lt_2 [] gen_start = .abort (.unexpected_operator 60)
      ⟨0, [.push_imm 1, .push_imm 2, .pop .rdi, .pop .rax], []⟩ := by
  decide

/-- C9 as amended: for `ND_EQUAL` and `ND_NOTEQUAL` with accepted operands,
`gen` returns and prints the operands, `pop rdi`, `pop rax`, `cmp rax, rdi`,
`sete al` or `setne al`, `movzb rax, al`, `push rax`; for `'<'`, `'>'`,
`ND_LESSEQUAL` and `ND_GREATEREQUAL` it prints the operands and the two pops
and stops with the unexpected-operator message. -/
theorem C9_equality_lowered_relational_rejected (k : BinKind) (l r : Node) (idents : Map)
    (st : GenState) (h0 : 0 ≤ st.stackpos) (hl : accepted l = true) (hr : accepted r = true) :
    ((k = .equal ∨ k = .notequal) →
      ∃ st1, gen (.binop k l r) idents st = .ok st1 ∧
        st1.out = st.out ++ (lines l idents st.stackpos ++ lines r idents (st.stackpos + 8)
          ++ [.pop .rdi, .pop .rax, .cmp_rax_rdi, set_line k, .movzb_rax_al, .push .rax])) ∧
    (relational_kind k = true →
      ∃ st1, gen (.binop k l r) idents st = .abort (.unexpected_operator k.ty) st1 ∧
        st1.out = st.out ++ (lines l idents st.stackpos ++ lines r idents (st.stackpos + 8)
          ++ [.pop .rdi, .pop .rax])) := by
  obtain ⟨st1, h1, hs1⟩ := (gen_outcome idents l st h0).1 hl
  obtain ⟨st2, h2, hs2⟩ := (gen_outcome idents r st1 (by omega)).1 hr
  have ho1 := gen_ok_out h1
  have ho2 := gen_ok_out h2
  rw [ho1, hs1] at ho2
  constructor
  · intro hk
    have hne : k ≠ .assign := by rcases hk with hk | hk <;> rw [hk] <;> decide
    rw [gen_binop k hne, h1, Result.ok_andThen, h2, Result.ok_andThen,
      pop_pop _ _ (by omega)]
    rcases hk with hk | hk <;> subst hk <;>
      simp [binop_lines, push, emit, emit_all, set_line, ho2]
  · intro hk
    have hne : k ≠ .assign := by intro h; rw [h] at hk; simp [relational_kind] at hk
    rw [gen_binop k hne, h1, Result.ok_andThen, h2, Result.ok_andThen,
      pop_pop _ _ (by omega)]
    cases k <;> simp [relational_kind] at hk <;> simp [binop_lines, ho2]

/-- C9 as amended, at `1 == 2` entered with `stackpos = 0`. -/
theorem C9_witness_equal :
    (0 : Int) ≤ gen_start.stackpos ∧
    ((BinKind.equal = .equal ∨ BinKind.equal = .notequal) →
      ∃ st1, gen (.binop .equal (.num 1) (.num 2)) [] gen_start = .ok st1 ∧
        st1.out = gen_start.out ++ (lines (.num 1) [] gen_start.stackpos
          ++ lines (.num 2) [] (gen_start.stackpos + 8)
          ++ [.pop .rdi, .pop .rax, .cmp_rax_rdi, set_line .equal, .movzb_rax_al,
              .push .rax])) ∧
    (relational_kind .equal = true →
      ∃ st1, gen (.binop .equal (.num 1) (.num 2)) [] gen_start
          = .abort (.unexpected_operator BinKind.equal.ty) st1 ∧
        st1.out = gen_start.out ++ (lines (.num 1) [] gen_start.stackpos
          ++ lines (.num 2) [] (gen_start.stackpos + 8) ++ [.pop .rdi, .pop .rax])) :=
  ⟨by decide,
    C9_equality_lowered_relational_rejected .equal (.num 1) (.num 2) [] gen_start
      (by decide) (by decide) (by decide)⟩

theorem slots_append (n : Nat) : ∀ (a b : List String),
    slots n (a ++ b) = slots n a ++ slots (n + a.length) b
  | [], b => by simp [slots]
  | x :: a, b => by
    have h := slots_append (n + 1) a b
    rw [show n + 1 + a.length = n + (a.length + 1) by omega] at h
    simp [slots, h]

theorem slots_length : ∀ (n : Nat) (a : List String), (slots n a).length = a.length
  | _, [] => rfl
  | n, x :: a => by simp [slots, slots_length (n + 1) a]

theorem slots_keys : ∀ (n : Nat) (a : List String), (slots n a).map Prod.fst = a
  | _, [] => rfl
  | n, x :: a => by simp [slots, slots_keys (n + 1) a]

theorem mem_slots : ∀ (n : Nat) (a : List String) (x : String) (v : Int),
    (x, v) ∈ slots n a → ∃ i : Nat, a[i]? = some x ∧ v = -8 * ((n : Int) + i + 1)
  | _, [], x, v, h => by simp [slots] at h
  | n, y :: a, x, v, h => by
    simp only [slots, List.mem_cons, Prod.mk.injEq] at h
    rcases h with ⟨hx, hv⟩ | h
    · exact ⟨0, by simp [hx], by simp [hv]⟩
    · obtain ⟨i, hi, hv⟩ := mem_slots (n + 1) a x v h
      exact ⟨i + 1, by simpa using hi, by rw [hv]; push_cast; ring⟩

theorem idents_in_statement_eq (node : Node) :
    ∀ idents : Map, idents_in_statement node idents
      = idents ++ slots idents.length (assigned_names node) := by
  induction node using Node.induct_aux with
  | hnum v => intro idents; simp [idents_in_statement, assigned_names, slots]
  | hident x => intro idents; simp [idents_in_statement, assigned_names, slots]
  | hcall f args _ => intro idents; simp [idents_in_statement, assigned_names, slots]
  | hbin k l r ihl ihr =>
    intro idents
    have hput : put_if_assigned k l idents = idents ++ slots idents.length (target_name k l) := by
      by_cases hk : k = .assign
      · subst hk
        cases l <;> simp [put_if_assigned, target_name, map_put, slots]
      · cases k <;> simp at hk <;> simp [put_if_assigned, target_name, slots]
    rw [idents_in_statement, assigned_names, ihr, ihl, hput, slots_append, slots_append]
    simp [slots_length, List.append_assoc, Nat.add_assoc]

theorem idents_in_code_from (code : List Node) : ∀ idents : Map,
    code.foldl (fun idents stmt => idents_in_statement stmt idents) idents
      = idents ++ slots idents.length (code.flatMap assigned_names) := by
  induction code with
  | nil => intro idents; simp [slots]
  | cons stmt rest ih =>
    intro idents
    rw [List.foldl_cons, ih, idents_in_statement_eq, List.flatMap_cons, slots_append]
    simp [slots_length, List.append_assoc]

theorem idents_in_code_eq (code : List Node) :
    idents_in_code code = slots 0 (code.flatMap assigned_names) := by
  simp [idents_in_code, new_map, idents_in_code_from]

theorem map_get_mem : ∀ (m : Map) (key : String) (v : Int),
    map_get m key = some v → (key, v) ∈ m
  | [], _, _, h => by simp [map_get] at h
  | (k, w) :: rest, key, v, h => by
    rw [map_get] at h
    cases hr : map_get rest key with
    | some u =>
      rw [hr] at h
      simp only [Option.some.injEq] at h
      subst h
      exact List.mem_cons_of_mem _ (map_get_mem rest key u hr)
    | none =>
      rw [hr] at h
      simp only at h
      split at h
      · rename_i hk
        simp only [Option.some.injEq] at h
        subst h; subst hk
        exact List.mem_cons_self _ _
      · cases h

theorem map_get_isSome : ∀ (m : Map) (key : String),
    (map_get m key).isSome = true ↔ key ∈ m.map Prod.fst
  | [], _ => by simp [map_get]
  | (k, w) :: rest, key => by
    rw [map_get]
    have ih := map_get_isSome rest key
    cases hr : map_get rest key with
    | some u =>
      rw [hr] at ih
      simp only [Option.isSome_some, true_iff] at ih
      simp [ih]
    | none =>
      rw [hr] at ih
      simp only [Option.isSome_none, Bool.false_eq_true, false_iff] at ih
      simp only [List.map_cons, List.mem_cons]
      by_cases hk : k = key
      · simp [hk]
      · simp [hk, ih, Ne.symm hk]

theorem mem_assigned_names (name : String) (node : Node) :
    name ∈ assigned_names node ↔
      ∃ n ∈ reachable node, ∃ rhs, n = Node.binop .assign (.ident name) rhs := by
  induction node using Node.induct_aux with
  | hnum v => simp [assigned_names, reachable]
  | hident x => simp [assigned_names, reachable]
  | hcall f args _ => simp [assigned_names, reachable]
  | hbin k l r ihl ihr =>
    rw [assigned_names, reachable]
    simp only [List.mem_append, List.mem_cons, exists_eq_or_imp, ihl, ihr]
    have hfirst : name ∈ target_name k l ↔
        ∃ rhs, Node.binop k l r = Node.binop .assign (.ident name) rhs := by
      by_cases hk : k = .assign
      · subst hk
        cases l <;> simp [target_name, eq_comm]
      · cases k <;> simp at hk <;> simp [target_name]
    rw [hfirst]
    constructor
    · rintro (h | h | h)
      · exact Or.inl h
      · obtain ⟨n, hn, h⟩ := h; exact Or.inr ⟨n, Or.inl hn, h⟩
      · obtain ⟨n, hn, h⟩ := h; exact Or.inr ⟨n, Or.inr hn, h⟩
    · rintro (h | ⟨n, hn | hn, h⟩)
      · exact Or.inl h
      · exact Or.inr (Or.inl ⟨n, hn, h⟩)
      · exact Or.inr (Or.inr ⟨n, hn, h⟩)

theorem bound_iff_assigned (code : List Node) (name : String) :
    (map_get (idents_in_code code) name).isSome = true ↔ assigned_in_code code name := by
  rw [map_get_isSome, idents_in_code_eq, slots_keys, List.mem_flatMap, assigned_in_code]
  constructor
  · rintro ⟨stmt, hs, h⟩
    exact ⟨stmt, hs, (mem_assigned_names name stmt).1 h⟩
  · rintro ⟨stmt, hs, h⟩
    exact ⟨stmt, hs, (mem_assigned_names name stmt).2 h⟩

theorem slot_of_bound (code : List Node) (x : String) (ox : Int)
    (h : map_get (idents_in_code code) x = some ox) :
    ∃ i : Nat, (code.flatMap assigned_names)[i]? = some x ∧ ox = -8 * ((i : Int) + 1) ∧
      i < (idents_in_code code).length := by
  have hm := map_get_mem _ _ _ h
  rw [idents_in_code_eq] at hm ⊢
  obtain ⟨i, hi, hv⟩ := mem_slots 0 _ x ox hm
  refine ⟨i, hi, by rw [hv]; push_cast; ring, ?_⟩
  rw [slots_length]
  exact (List.getElem?_eq_some_iff.1 hi).1

/-- C11: a name is bound in the map returned by `idents_in_code` exactly when
some `'='` node reachable from a statement through `lhs` and `rhs` links has an
`IDENT` node with that name as its direct `lhs`; for a name that is not, `map_get`
returns the absent sentinel and `gen_lval` prints the offset 0. -/
theorem C11_bound_iff_assigned (code : List Node) (name : String) :
    ((map_get (idents_in_code code) name).isSome = true ↔ assigned_in_code code name) ∧
    (¬ assigned_in_code code name →
      map_get (idents_in_code code) name = none ∧
      ∀ st : GenState, gen_lval (.ident name) (idents_in_code code) st
        = .ok (push .rax (emit (.lea_rax_rbp 0) st))) := by
  refine ⟨bound_iff_assigned code name, fun h => ?_⟩
  have hnone : map_get (idents_in_code code) name = none := by
    cases hg : map_get (idents_in_code code) name with
    | none => rfl
    | some v => exact absurd ((bound_iff_assigned code name).1 (by simp [hg])) h
  exact ⟨hnone, fun st => by simp [gen_lval, hnone]⟩

/-- C11 at `a = b = 1; c + (a = 2); f(d = 3);`: `b` is assigned and bound; `c`,
only read, and `d`, assigned inside an argument of a call, are neither. -/
theorem C11_witness_code_mixed :
    assigned_in_code code_mixed "b" ∧ map_get (idents_in_code code_mixed) "b" = some (-16) ∧
    ¬ assigned_in_code code_mixed "c" ∧ map_get (idents_in_code code_mixed) "c" = none ∧
    ¬ assigned_in_code code_mixed "d" ∧ map_get (idents_in_code code_mixed) "d" = none :=
  ⟨(C11_bound_iff_assigned code_mixed "b").1.1 (by decide), by decide,
    fun h => absurd ((C11_bound_iff_assigned code_mixed "c").1.2 h) (by decide), by decide,
    fun h => absurd ((C11_bound_iff_assigned code_mixed "d").1.2 h) (by decide), by decide⟩

/-- C12, the code at `a = 1; a = 2;`: `idents_in_statement` puts `a` at each of
the two assignments, so the map has two entries, at offsets -8 and -16, for
the one identifier assigned. -/
theorem C12_one_entry_per_assignment :
    idents_in_code code_a_twice = [("a", -8), ("a", -16)] ∧
    (idents_in_code code_a_twice).length = 2 ∧
    (code_a_twice.flatMap assigned_names).dedup = ["a"] ∧
    map_get (idents_in_code code_a_twice) "a" = some (-16) := by
  decide

/-- C13: in the map returned by `idents_in_code`, two distinct bound names
resolve through `map_get` to different offsets, and every resolved offset is a
negative multiple of 8 between `-8 * (number of entries)` and -8. -/
theorem C13_distinct_slots (code : List Node) :
    (∀ (x y : String) (ox oy : Int), x ≠ y →
      map_get (idents_in_code code) x = some ox →
      map_get (idents_in_code code) y = some oy → ox ≠ oy) ∧
    (∀ (x : String) (ox : Int), map_get (idents_in_code code) x = some ox →
      ox < 0 ∧ (8 : Int) ∣ ox ∧
      -8 * ((idents_in_code code).length : Int) ≤ ox ∧ ox ≤ -8) := by
  constructor
  · intro x y ox oy hxy hx hy hxo
    obtain ⟨i, hi, hox, _⟩ := slot_of_bound code x ox hx
    obtain ⟨j, hj, hoy, _⟩ := slot_of_bound code y oy hy
    have hij : i = j := by omega
    subst hij
    rw [hi] at hj
    exact hxy (Option.some.inj hj)
  · intro x ox hx
    obtain ⟨i, _, hox, hlt⟩ := slot_of_bound code x ox hx
    refine ⟨by omega, ⟨-((i : Int) + 1), by rw [hox]; ring⟩, by omega, by omega⟩

theorem rsp_lowering_nil : rsp_lowering [] = 0 := rfl

theorem rsp_lowering_cons (i : Instr) (c : List Instr) :
    rsp_lowering (i :: c) = rsp_lowering_of i + rsp_lowering c := by
  simp [rsp_lowering]

theorem rsp_lowering_append (a c : List Instr) :
    rsp_lowering (a ++ c) = rsp_lowering a + rsp_lowering c := by
  simp [rsp_lowering]

theorem never_below_nil (b : Int) : never_below b [] ↔ 0 ≤ b := by
  simp [never_below, rsp_lowering_nil]

theorem never_below_cons (b : Int) (i : Instr) (c : List Instr) :
    never_below b (i :: c) ↔ 0 ≤ b ∧ never_below (b + rsp_lowering_of i) c := by
  constructor
  · intro h
    refine ⟨by simpa [rsp_lowering_nil] using h 0, fun k => ?_⟩
    have := h (k + 1)
    rw [List.take_succ_cons, rsp_lowering_cons] at this
    omega
  · rintro ⟨h0, h⟩ k
    cases k with
    | zero => simpa [rsp_lowering_nil] using h0
    | succ k =>
      have := h k
      rw [List.take_succ_cons, rsp_lowering_cons]
      omega

theorem never_below_base {b : Int} {c : List Instr} (h : never_below b c) : 0 ≤ b := by
  simpa [rsp_lowering_nil] using h 0

theorem never_below_mono {b b1 : Int} {c : List Instr} (h : never_below b c) (hb : b ≤ b1) :
    never_below b1 c := fun k => by
  have := h k
  omega

theorem never_below_append {b : Int} {a c : List Instr} (ha : never_below b a)
    (hc : never_below (b + rsp_lowering a) c) : never_below b (a ++ c) := by
  intro k
  rw [List.take_append_eq_append_take, rsp_lowering_append]
  by_cases hk : k ≤ a.length
  · have h1 := ha k
    have h2 : List.take (k - a.length) c = [] := by
      rw [Nat.sub_eq_zero_of_le hk]; rfl
    rw [h2, rsp_lowering_nil]
    omega
  · have h1 : List.take k a = a := List.take_of_length_le (by omega)
    have h2 := hc (k - a.length)
    rw [h1]
    omega

theorem never_below_neutral (b : Int) (hb : 0 ≤ b) : ∀ (c : List Instr),
    (∀ i ∈ c, rsp_lowering_of i = 0) → never_below b c ∧ rsp_lowering c = 0
  | [], _ => ⟨(never_below_nil b).2 hb, rfl⟩
  | i :: c, h => by
    have hi := h i (List.mem_cons_self _ _)
    have ih := never_below_neutral b hb c (fun j hj => h j (List.mem_cons_of_mem _ hj))
    rw [never_below_cons, rsp_lowering_cons, hi, ih.2]
    exact ⟨⟨hb, by simpa using ih.1⟩, by simp⟩

theorem binop_lines_neutral (k : BinKind) (ls : List Instr) (h : binop_lines k = some ls) :
    ∀ i ∈ ls, rsp_lowering_of i = 0 := by
  cases k <;> simp [binop_lines] at h <;> subst h <;> simp [rsp_lowering_of]

theorem never_below_pops (b : Int) : ∀ (rs : List Reg), 8 * (rs.length : Int) ≤ b →
    never_below b (rs.map Instr.pop) ∧ rsp_lowering (rs.map Instr.pop) = -8 * (rs.length : Int)
  | [], h => ⟨(never_below_nil b).2 (by simpa using h), by simp [rsp_lowering_nil]⟩
  | r :: rs, h => by
    simp only [List.length_cons, Nat.cast_add, Nat.cast_one] at h
    have ih := never_below_pops (b - 8) rs (by omega)
    simp only [List.map_cons, never_below_cons, rsp_lowering_cons, rsp_lowering_of,
      List.length_cons, Nat.cast_add, Nat.cast_one, ih.2]
    refine ⟨⟨by omega, ?_⟩, by ring⟩
    have : b + -8 = b - 8 := by ring
    rw [this]
    exact ih.1

theorem stack_args_all_nonneg : ∀ (args : List Node), (∀ a ∈ args, 0 ≤ stack_args a) →
    0 ≤ stack_args_all args
  | [], _ => by simp [stack_args_all]
  | a :: rest, h => by
    have h1 := h a (List.mem_cons_self _ _)
    have h2 := stack_args_all_nonneg rest (fun b hb => h b (List.mem_cons_of_mem _ hb))
    rw [stack_args_all]
    omega

theorem stack_args_nonneg (node : Node) : 0 ≤ stack_args node := by
  induction node using Node.induct_aux with
  | hnum v => simp [stack_args]
  | hident x => simp [stack_args]
  | hcall f args ih =>
    have := stack_args_all_nonneg args ih
    rw [stack_args]
    omega
  | hbin k l r ihl ihr => rw [stack_args]; omega

theorem call_tail_lines_drift (f : String) (n : Nat) (al : Bool) (b : Int)
    (hb : 8 * nregargs_of n + (if al then 8 else 0) ≤ b) :
    never_below b (call_tail_lines f n al) ∧
    rsp_lowering (call_tail_lines f n al)
      = -8 * nregargs_of n + 8 * ((n : Int) - nregargs_of n) - (if al then 8 else 0) + 8 := by
  have hlen := length_take_regs n
  have hr : nregargs_of (n : Int) ≤ n ∧ 0 ≤ nregargs_of (n : Int) := by
    unfold nregargs_of; split <;> omega
  have hpad : (0 : Int) ≤ (if al then 8 else 0) := by split <;> omega
  obtain ⟨hp1, hp2⟩ := never_below_pops b (regs.take (nregargs_of (n : Int)).toNat)
    (by rw [hlen]; omega)
  rw [hlen] at hp2
  unfold call_tail_lines
  simp only [List.append_assoc]
  constructor
  · refine never_below_append hp1 ?_
    rw [hp2]
    by_cases hn : 0 < (n : Int) - nregargs_of n <;> cases al <;>
      simp only [Bool.false_eq_true, if_false, if_true, add_zero] at hb <;>
      simp [hn, never_below_cons, never_below_nil, rsp_lowering_of] <;> omega
  · rw [rsp_lowering_append, hp2]
    by_cases hn : 0 < (n : Int) - nregargs_of n <;> cases al <;>
      simp [hn, rsp_lowering_cons, rsp_lowering_nil, rsp_lowering_of] <;> omega

theorem gen_args_drift (idents : Map) : ∀ (args : List Node), (∀ a ∈ args, drift_at idents a) →
    ∀ st : GenState, 0 ≤ st.stackpos →
    ∃ code, (gen_args args idents st).state.out = st.out ++ code ∧ never_below 0 code ∧
      ((∃ st1, gen_args args idents st = .ok st1) →
        rsp_lowering code = 8 * (args.length : Int) + 16 * stack_args_all args)
  | [], _, st, _ =>
    ⟨[], by simp [gen_args, Result.state], (never_below_nil 0).2 (le_refl 0),
      fun _ => by simp [rsp_lowering_nil, stack_args_all]⟩
  | a :: rest, ih, st, h0 => by
    obtain ⟨cr, hor, hsr, hdr⟩ :=
      gen_args_drift idents rest (fun b hb => ih b (List.mem_cons_of_mem _ hb)) st h0
    rw [gen_args_cons]
    cases h1 : gen_args rest idents st with
    | abort e st1 =>
      rw [h1] at hor
      exact ⟨cr, by simpa [Result.abort_andThen, Result.state] using hor, hsr,
        fun ⟨st2, h⟩ => by simp [Result.abort_andThen] at h⟩
    | ok st1 =>
      rw [h1] at hor
      simp only [Result.state] at hor
      have hd1 := hdr ⟨st1, h1⟩
      have hs1 := gen_args_ok_stackpos h0 h1
      have hk := stack_args_all_nonneg rest (fun b _ => stack_args_nonneg b)
      obtain ⟨ca, hoa, hsa, hda⟩ := ih a (List.mem_cons_self _ _) st1 (by omega)
      rw [Result.ok_andThen]
      refine ⟨cr ++ ca, by rw [hoa, hor, List.append_assoc],
        never_below_append hsr (never_below_mono hsa (by omega)), fun hok => ?_⟩
      rw [rsp_lowering_append, hd1, hda hok, stack_args_all, List.length_cons]
      push_cast
      ring

theorem gen_drift (idents : Map) (node : Node) : drift_at idents node := by
  induction node using Node.induct_aux with
  | hnum v =>
    intro st _
    refine ⟨[.push_imm v], by simp [gen_num, push_imm32, emit, Result.state], ?_, fun _ => ?_⟩
    · simp [never_below_cons, never_below_nil, rsp_lowering_of]
    · simp [rsp_lowering_cons, rsp_lowering_nil, rsp_lowering_of, stack_args]
  | hident x =>
    intro st h0
    refine ⟨_, by rw [gen_ident _ _ _ h0]; rfl, ?_, fun _ => ?_⟩
    · simp [never_below_cons, never_below_nil, rsp_lowering_of]
    · simp [rsp_lowering_cons, rsp_lowering_nil, rsp_lowering_of, stack_args]
  | hcall f args ih =>
    intro st h0
    have hpad : (0 : Int) ≤ (if align_of st.stackpos args.length then 8 else 0) := by
      split <;> omega
    have hent : 0 ≤ (enter_call (align_of st.stackpos args.length) st).stackpos := by
      rw [enter_call_stackpos]; omega
    obtain ⟨ca, hoa, hsa, hda⟩ := gen_args_drift idents args ih _ hent
    rw [enter_call_out] at hoa
    have hsp : never_below 0
        (if align_of st.stackpos args.length then [Instr.sub_rsp 8] else []) ∧
        rsp_lowering (if align_of st.stackpos args.length then [Instr.sub_rsp 8] else [])
          = (if align_of st.stackpos args.length then 8 else 0) := by
      cases align_of st.stackpos args.length <;>
        simp [never_below_cons, never_below_nil, rsp_lowering_cons, rsp_lowering_nil,
          rsp_lowering_of]
    rw [gen_call]
    cases h1 : gen_args args idents (enter_call (align_of st.stackpos args.length) st) with
    | abort e st1 =>
      rw [h1] at hoa
      simp only [Result.state] at hoa
      refine ⟨(if align_of st.stackpos args.length then [Instr.sub_rsp 8] else []) ++ ca,
        by simp [Result.abort_andThen, Result.state, hoa],
        never_below_append hsp.1 (never_below_mono hsa (by rw [hsp.2]; omega)),
        fun ⟨st2, h⟩ => by simp [Result.abort_andThen] at h⟩
    | ok st1 =>
      rw [h1] at hoa
      simp only [Result.state] at hoa
      have hd1 := hda ⟨st1, h1⟩
      have hs1 := gen_args_ok_stackpos hent h1
      rw [enter_call_stackpos] at hs1
      have hk := stack_args_all_nonneg args (fun b _ => stack_args_nonneg b)
      have hr : nregargs_of (args.length : Int) ≤ args.length := by
        unfold nregargs_of; split <;> omega
      obtain ⟨ht1, ht2⟩ := call_tail_lines_drift f args.length
        (align_of st.stackpos args.length)
        ((if align_of st.stackpos args.length then 8 else 0)
          + (8 * (args.length : Int) + 16 * stack_args_all args)) (by omega)
      rw [Result.ok_andThen, call_tail_spec f args.length st.stackpos _ st1 h0 hs1]
      refine ⟨((if align_of st.stackpos args.length then [Instr.sub_rsp 8] else []) ++ ca)
          ++ call_tail_lines f args.length (align_of st.stackpos args.length),
        by simp [Result.state, hoa], ?_, fun _ => ?_⟩
      · refine never_below_append
          (never_below_append hsp.1 (never_below_mono hsa (by rw [hsp.2]; omega))) ?_
        rw [rsp_lowering_append, hsp.2, hd1, zero_add]
        exact ht1
      · rw [rsp_lowering_append, rsp_lowering_append, hsp.2, hd1, ht2, stack_args,
          ← nstackargs_eq]
        ring
  | hbin k l r ihl ihr =>
    intro st h0
    have hkl := stack_args_nonneg l
    have hkr := stack_args_nonneg r
    by_cases hk : k = .assign
    · subst hk
      rw [gen_assign]
      cases l with
      | ident x =>
        simp only [gen_lval, Result.ok_andThen]
        have hst : (push .rax (emit (.lea_rax_rbp ((map_get idents x).getD 0)) st)).stackpos
            = st.stackpos + 8 := by simp [push, emit]
        have hso : (push .rax (emit (.lea_rax_rbp ((map_get idents x).getD 0)) st)).out
            = st.out ++ [.lea_rax_rbp ((map_get idents x).getD 0), .push .rax] := by
          simp [push, emit]
        obtain ⟨cr, hor, hsr, hdr⟩ :=
          ihr (push .rax (emit (.lea_rax_rbp ((map_get idents x).getD 0)) st)) (by omega)
        rw [hso] at hor
        have hlv : never_below 0
            [Instr.lea_rax_rbp ((map_get idents x).getD 0), Instr.push .rax] := by
          simp [never_below_cons, never_below_nil, rsp_lowering_of]
        have hlr : rsp_lowering
            [Instr.lea_rax_rbp ((map_get idents x).getD 0), Instr.push .rax] = 8 := by
          simp [rsp_lowering_cons, rsp_lowering_nil, rsp_lowering_of]
        cases h1 : gen r idents (push .rax (emit (.lea_rax_rbp ((map_get idents x).getD 0)) st)) with
        | abort e st1 =>
          rw [h1] at hor
          simp only [Result.state] at hor
          exact ⟨[Instr.lea_rax_rbp ((map_get idents x).getD 0), Instr.push .rax] ++ cr,
            by simp [Result.abort_andThen, Result.state, hor],
            never_below_append hlv (never_below_mono hsr (by omega)),
            fun ⟨st2, h⟩ => by simp [Result.abort_andThen] at h⟩
        | ok st1 =>
          rw [h1] at hor
          simp only [Result.state] at hor
          have hd1 := hdr ⟨st1, h1⟩
          have hs1 := gen_ok_stackpos (by omega) h1
          rw [Result.ok_andThen, pop_pop _ _ (by omega)]
          refine ⟨([Instr.lea_rax_rbp ((map_get idents x).getD 0), Instr.push .rax] ++ cr)
              ++ [.pop .rdi, .pop .rax, .mov_mem_rdi, .push .rdi],
            by simp [Result.state, push, emit, hor], ?_, fun _ => ?_⟩
          · refine never_below_append
              (never_below_append hlv (never_below_mono hsr (by omega))) ?_
            rw [rsp_lowering_append, hlr, hd1]
            simp [never_below_cons, never_below_nil, rsp_lowering_of]
            omega
          · rw [rsp_lowering_append, rsp_lowering_append, hlr, hd1, stack_args]
            simp [rsp_lowering_cons, rsp_lowering_nil, rsp_lowering_of, stack_args]
      | num v =>
        exact ⟨[], by simp [gen_lval, Result.abort_andThen, Result.state],
          (never_below_nil 0).2 (le_refl 0),
          fun ⟨st2, h⟩ => by simp [gen_lval, Result.abort_andThen] at h⟩
      | call f args =>
        exact ⟨[], by simp [gen_lval, Result.abort_andThen, Result.state],
          (never_below_nil 0).2 (le_refl 0),
          fun ⟨st2, h⟩ => by simp [gen_lval, Result.abort_andThen] at h⟩
      | binop k2 l2 r2 =>
        exact ⟨[], by simp [gen_lval, Result.abort_andThen, Result.state],
          (never_below_nil 0).2 (le_refl 0),
          fun ⟨st2, h⟩ => by simp [gen_lval, Result.abort_andThen] at h⟩
    · rw [gen_binop k hk]
      obtain ⟨cl, hol, hsl, hdl⟩ := ihl st h0
      cases h1 : gen l idents st with
      | abort e st1 =>
        rw [h1] at hol
        simp only [Result.state] at hol
        exact ⟨cl, by simp [Result.abort_andThen, Result.state, hol], hsl,
          fun ⟨st2, h⟩ => by simp [Result.abort_andThen] at h⟩
      | ok st1 =>
        rw [h1] at hol
        simp only [Result.state] at hol
        have hd1 := hdl ⟨st1, h1⟩
        have hs1 := gen_ok_stackpos h0 h1
        obtain ⟨cr, hor, hsr, hdr⟩ := ihr st1 (by omega)
        rw [Result.ok_andThen]
        cases h2 : gen r idents st1 with
        | abort e st2 =>
          rw [h2] at hor
          simp only [Result.state] at hor
          exact ⟨cl ++ cr, by simp [Result.abort_andThen, Result.state, hor, hol],
            never_below_append hsl (never_below_mono hsr (by omega)),
            fun ⟨st3, h⟩ => by simp [Result.abort_andThen] at h⟩
        | ok st2 =>
          rw [h2] at hor
          simp only [Result.state] at hor
          have hd2 := hdr ⟨st2, h2⟩
          have hs2 := gen_ok_stackpos (by omega) h2
          have hlr : never_below 0 (cl ++ cr) :=
            never_below_append hsl (never_below_mono hsr (by omega))
          have hpp : never_below (0 + rsp_lowering (cl ++ cr)) [Instr.pop .rdi, Instr.pop .rax] := by
            rw [rsp_lowering_append, hd1, hd2]
            simp [never_below_cons, never_below_nil, rsp_lowering_of]
            omega
          rw [Result.ok_andThen, pop_pop _ _ (by omega)]
          cases hb : binop_lines k with
          | none =>
            exact ⟨(cl ++ cr) ++ [.pop .rdi, .pop .rax],
              by simp [Result.state, hor, hol], never_below_append hlr hpp,
              fun ⟨st3, h⟩ => by simp at h⟩
          | some ls =>
            obtain ⟨hn1, hn2⟩ := never_below_neutral (16 * stack_args l + 16 * stack_args r)
              (by omega) ls (binop_lines_neutral k ls hb)
            refine ⟨((cl ++ cr) ++ [.pop .rdi, .pop .rax]) ++ (ls ++ [.push .rax]),
              by simp [Result.state, push, emit, emit_all, hor, hol], ?_, fun _ => ?_⟩
            · refine never_below_append (never_below_append hlr hpp) ?_
              rw [rsp_lowering_append, rsp_lowering_append, hd1, hd2]
              refine never_below_append (never_below_mono hn1 ?_) ?_
              · simp [rsp_lowering_cons, rsp_lowering_nil, rsp_lowering_of]
                omega
              · rw [hn2]
                simp [never_below_cons, never_below_nil, rsp_lowering_cons, rsp_lowering_nil,
                  rsp_lowering_of]
                omega
            · rw [rsp_lowering_append, rsp_lowering_append, rsp_lowering_append,
                rsp_lowering_append, hd1, hd2, hn2, stack_args]
              simp [rsp_lowering_cons, rsp_lowering_nil, rsp_lowering_of]
              ring

theorem Tracked.andThen_ok (st : GenState) (lv : List Int) (k : GenState → List Int → Tracked) :
    (Tracked.mk (.ok st) lv).andThen k = k st lv := rfl

theorem Tracked.andThen_abort (e : GenError) (st : GenState) (lv : List Int)
    (k : GenState → List Int → Tracked) :
    (Tracked.mk (.abort e st) lv).andThen k = ⟨.abort e st, lv⟩ := rfl

theorem pop_tracked_of_le (r : Reg) (st : GenState) (lv : List Int) (h : 8 ≤ st.stackpos) :
    pop_tracked r st lv
      = ⟨.ok ⟨st.stackpos - 8, st.out ++ [.pop r], st.calls⟩, lv ++ [st.stackpos - 8]⟩ := by
  simp [pop_tracked, pop_of_le r st h, note, Result.state]

theorem pop_pop_tracked (st : GenState) (lv : List Int) (k : GenState → List Int → Tracked)
    (h : 16 ≤ st.stackpos) :
    ((pop_tracked .rdi st lv).andThen fun st1 lv1 => (pop_tracked .rax st1 lv1).andThen k)
      = k ⟨st.stackpos - 16, st.out ++ [.pop .rdi, .pop .rax], st.calls⟩
          (lv ++ [st.stackpos - 8, st.stackpos - 16]) := by
  rw [pop_tracked_of_le _ _ _ (by omega), Tracked.andThen_ok,
    pop_tracked_of_le _ _ _ (by simp only; omega), Tracked.andThen_ok]
  have e : st.stackpos - 8 - 8 = st.stackpos - 16 := by omega
  simp only [List.append_assoc, List.singleton_append, e]

theorem pop_regs_tracked_of_le : ∀ (rs : List Reg) (st : GenState) (lv : List Int),
    8 * (rs.length : Int) ≤ st.stackpos →
    ∃ new, pop_regs_tracked rs st lv
        = ⟨.ok ⟨st.stackpos - 8 * rs.length, st.out ++ rs.map Instr.pop, st.calls⟩, lv ++ new⟩ ∧
      ∀ v ∈ new, st.stackpos - 8 * (rs.length : Int) ≤ v
  | [], st, lv, _ => ⟨[], by simp [pop_regs_tracked], by simp⟩
  | r :: rs, st, lv, h => by
    simp only [List.length_cons, Nat.cast_add, Nat.cast_one] at h ⊢
    obtain ⟨new, hn, hv⟩ := pop_regs_tracked_of_le rs
      ⟨st.stackpos - 8, st.out ++ [.pop r], st.calls⟩ (lv ++ [st.stackpos - 8])
      (by simp only; omega)
    refine ⟨(st.stackpos - 8) :: new, ?_, ?_⟩
    · rw [pop_regs_tracked, pop_tracked_of_le r st lv (by omega), Tracked.andThen_ok, hn]
      simp only [List.map_cons, List.append_assoc, List.singleton_append, Tracked.mk.injEq,
        Result.ok.injEq, GenState.mk.injEq, and_true]
      omega
    · intro v hmem
      rcases List.mem_cons.1 hmem with h1 | h1
      · omega
      · have := hv v h1
        simp only at this
        omega

theorem call_tail_tracked_spec (name : String) (n : Nat) (orig : Int) (align : Bool)
    (st : GenState) (lv : List Int) (h0 : 0 ≤ orig)
    (hs : st.stackpos = orig + (if align then 8 else 0) + 8 * (n : Int)) :
    ∃ new, call_tail_tracked name n (nregargs_of n) (n - nregargs_of n) orig align st lv
        = ⟨call_tail name n (nregargs_of n) (n - nregargs_of n) orig align st, lv ++ new⟩ ∧
      ∀ v ∈ new, orig ≤ v := by
  have hlen := length_take_regs n
  have hr : nregargs_of (n : Int) ≤ n ∧ 0 ≤ nregargs_of (n : Int) := by
    unfold nregargs_of; split <;> omega
  have ha : (0 : Int) ≤ (if align then 8 else 0) := by split <;> omega
  obtain ⟨new, hn, hv⟩ := pop_regs_tracked_of_le (regs.take (nregargs_of (n : Int)).toNat) st lv
    (by rw [hlen, hs]; omega)
  rw [hlen] at hn hv
  rw [call_tail_spec name n orig align st h0 hs]
  unfold call_tail_tracked
  rw [hn, Tracked.andThen_ok]
  simp only [emit, call_tail_lines, push_tracked, push, note]
  by_cases hns : 0 < (n : Int) - nregargs_of n <;> cases align <;>
    simp only [Bool.false_eq_true, if_false, if_true, add_zero] at hs <;>
    simp only [hns, Bool.false_eq_true, if_false, if_true] <;>
    rw [if_pos (by omega)]
  · refine ⟨new ++ [st.stackpos - 8 * nregargs_of n - 8 * ((n : Int) - nregargs_of n),
      st.stackpos - 8 * nregargs_of n - 8 * ((n : Int) - nregargs_of n) + 8], ?_, ?_⟩
    · simp; omega
    · intro v hmem
      simp only [List.mem_append, List.mem_cons, List.mem_singleton, List.not_mem_nil,
        or_false] at hmem
      rcases hmem with h1 | h1 | h1
      · have := hv v h1; omega
      · omega
      · omega
  · refine ⟨new ++ [st.stackpos - 8 * nregargs_of n - 8 * ((n : Int) - nregargs_of n),
      st.stackpos - 8 * nregargs_of n - 8 * ((n : Int) - nregargs_of n) - 8,
      st.stackpos - 8 * nregargs_of n - 8 * ((n : Int) - nregargs_of n) - 8 + 8], ?_, ?_⟩
    · simp; omega
    · intro v hmem
      simp only [List.mem_append, List.mem_cons, List.mem_singleton, List.not_mem_nil,
        or_false] at hmem
      rcases hmem with h1 | h1 | h1 | h1
      · have := hv v h1; omega
      · omega
      · omega
      · omega
  · refine ⟨new ++ [st.stackpos - 8 * nregargs_of n + 8], ?_, ?_⟩
    · simp; omega
    · intro v hmem
      simp only [List.mem_append, List.mem_singleton] at hmem
      rcases hmem with h1 | h1
      · have := hv v h1; omega
      · omega
  · refine ⟨new ++ [st.stackpos - 8 * nregargs_of n - 8,
      st.stackpos - 8 * nregargs_of n - 8 + 8], ?_, ?_⟩
    · simp; omega
    · intro v hmem
      simp only [List.mem_append, List.mem_cons, List.mem_singleton, List.not_mem_nil,
        or_false] at hmem
      rcases hmem with h1 | h1 | h1
      · have := hv v h1; omega
      · omega
      · omega

theorem gen_tracked_call (name : String) (args : List Node) (idents : Map) (st : GenState)
    (lv : List Int) :
    gen_tracked (.call name args) idents st lv =
      (gen_args_tracked args idents (enter_call (align_of st.stackpos args.length) st)
        (lv ++ (if align_of st.stackpos args.length then [st.stackpos + 8] else []))).andThen
        (call_tail_tracked name args.length (nregargs_of args.length)
          ((args.length : Int) - nregargs_of args.length) st.stackpos
          (align_of st.stackpos args.length)) := by
  rw [gen_tracked]
  have h : (if align_of st.stackpos args.length then
        note (enter_call (align_of st.stackpos args.length) st) lv else lv)
      = lv ++ (if align_of st.stackpos args.length then [st.stackpos + 8] else []) := by
    cases align_of st.stackpos args.length <;> simp [note, enter_call, emit]
  rw [← h]
  rfl

theorem gen_tracked_assign (l r : Node) (idents : Map) (st : GenState) (lv : List Int) :
    gen_tracked (.binop .assign l r) idents st lv =
    (gen_lval_tracked l idents st lv).andThen fun st lv =>
    (gen_tracked r idents st lv).andThen fun st lv =>
    (pop_tracked .rdi st lv).andThen fun st lv =>
    (pop_tracked .rax st lv).andThen fun st lv =>
    push_tracked .rdi (emit .mov_mem_rdi st) lv := by
  simp [gen_tracked]

theorem gen_tracked_binop (k : BinKind) (hk : k ≠ .assign) (l r : Node) (idents : Map)
    (st : GenState) (lv : List Int) :
    gen_tracked (.binop k l r) idents st lv =
    (gen_tracked l idents st lv).andThen fun st lv =>
    (gen_tracked r idents st lv).andThen fun st lv =>
    (pop_tracked .rdi st lv).andThen fun st lv =>
    (pop_tracked .rax st lv).andThen fun st lv =>
    match binop_lines k with
    | some lines => push_tracked .rax (emit_all lines st) lv
    | none => ⟨.abort (.unexpected_operator k.ty) st, lv⟩ := by
  cases k <;> simp [gen_tracked] at hk ⊢

theorem gen_args_tracked_spec (idents : Map) : ∀ (args : List Node),
    (∀ a ∈ args, tracked_at idents a) →
    ∀ (st : GenState) (lv : List Int), 0 ≤ st.stackpos →
    ∃ new, gen_args_tracked args idents st lv = ⟨gen_args args idents st, lv ++ new⟩ ∧
      ∀ v ∈ new, st.stackpos ≤ v
  | [], _, st, lv, _ => ⟨[], by simp [gen_args_tracked, gen_args], by simp⟩
  | a :: rest, ih, st, lv, h0 => by
    obtain ⟨n1, h1, hv1⟩ :=
      gen_args_tracked_spec idents rest (fun b hb => ih b (List.mem_cons_of_mem _ hb)) st lv h0
    rw [gen_args_tracked, h1, gen_args_cons]
    cases hr : gen_args rest idents st with
    | abort e st1 => exact ⟨n1, by simp [Tracked.andThen_abort, Result.abort_andThen], hv1⟩
    | ok st1 =>
      have hs1 := gen_args_ok_stackpos h0 hr
      obtain ⟨n2, h2, hv2⟩ := ih a (List.mem_cons_self _ _) st1 (lv ++ n1) (by omega)
      refine ⟨n1 ++ n2, by rw [Tracked.andThen_ok, h2, Result.ok_andThen, List.append_assoc],
        fun v hv => ?_⟩
      rcases List.mem_append.1 hv with h | h
      · exact hv1 v h
      · have := hv2 v h; omega

theorem gen_tracked_spec (idents : Map) (node : Node) : tracked_at idents node := by
  induction node using Node.induct_aux with
  | hnum v =>
    intro st lv _
    exact ⟨[st.stackpos + 8],
      by simp [gen_tracked, gen_num, push_imm32_tracked, note, push_imm32, emit], by simp⟩
  | hident x =>
    intro st lv h0
    refine ⟨[st.stackpos + 8, st.stackpos, st.stackpos + 8], ?_, ?_⟩
    · rw [gen_ident _ _ _ h0]
      simp only [gen_tracked, gen_lval_tracked, push_tracked, Tracked.andThen_ok]
      rw [pop_tracked_of_le _ _ _ (by simp [push, emit]; omega), Tracked.andThen_ok]
      simp [push, emit, note]
    · intro v hv
      simp only [List.mem_cons, List.mem_singleton, List.not_mem_nil, or_false] at hv
      omega
  | hcall f args ih =>
    intro st lv h0
    have hpad : (0 : Int) ≤ (if align_of st.stackpos args.length then 8 else 0) := by
      split <;> omega
    have hent : 0 ≤ (enter_call (align_of st.stackpos args.length) st).stackpos := by
      rw [enter_call_stackpos]; omega
    obtain ⟨n1, h1, hv1⟩ := gen_args_tracked_spec idents args ih
      (enter_call (align_of st.stackpos args.length) st)
      (lv ++ (if align_of st.stackpos args.length then [st.stackpos + 8] else [])) hent
    rw [enter_call_stackpos] at hv1
    have hvp : ∀ v ∈ (if align_of st.stackpos args.length then [st.stackpos + 8] else []),
        st.stackpos ≤ v := by
      intro v hv
      split at hv
      · simp at hv; omega
      · simp at hv
    rw [gen_tracked_call, gen_call, h1]
    cases hr : gen_args args idents (enter_call (align_of st.stackpos args.length) st) with
    | abort e st1 =>
      refine ⟨(if align_of st.stackpos args.length then [st.stackpos + 8] else []) ++ n1,
        by simp [Tracked.andThen_abort, Result.abort_andThen], fun v hv => ?_⟩
      rcases List.mem_append.1 hv with h | h
      · exact hvp v h
      · have := hv1 v h; omega
    | ok st1 =>
      have hs1 := gen_args_ok_stackpos hent hr
      rw [enter_call_stackpos] at hs1
      obtain ⟨n2, h2, hv2⟩ := call_tail_tracked_spec f args.length st.stackpos
        (align_of st.stackpos args.length) st1
        (lv ++ (if align_of st.stackpos args.length then [st.stackpos + 8] else []) ++ n1)
        h0 hs1
      refine ⟨(if align_of st.stackpos args.length then [st.stackpos + 8] else []) ++ n1 ++ n2,
        by rw [Tracked.andThen_ok, h2, Result.ok_andThen]; simp [List.append_assoc],
        fun v hv => ?_⟩
      rcases List.mem_append.1 hv with h | h
      · rcases List.mem_append.1 h with h | h
        · exact hvp v h
        · have := hv1 v h; omega
      · exact hv2 v h
  | hbin k l r ihl ihr =>
    intro st lv h0
    by_cases hk : k = .assign
    · subst hk
      rw [gen_tracked_assign, gen_assign]
      cases l with
      | ident x =>
        simp only [gen_lval_tracked, gen_lval, push_tracked, Tracked.andThen_ok,
          Result.ok_andThen]
        have hst : (push .rax (emit (.lea_rax_rbp ((map_get idents x).getD 0)) st)).stackpos
            = st.stackpos + 8 := by simp [push, emit]
        obtain ⟨n1, h1, hv1⟩ :=
          ihr (push .rax (emit (.lea_rax_rbp ((map_get idents x).getD 0)) st))
            (note (push .rax (emit (.lea_rax_rbp ((map_get idents x).getD 0)) st)) lv)
            (by omega)
        rw [h1]
        cases hr : gen r idents (push .rax (emit (.lea_rax_rbp ((map_get idents x).getD 0)) st)) with
        | abort e st1 =>
          refine ⟨[st.stackpos + 8] ++ n1,
            by simp [Tracked.andThen_abort, Result.abort_andThen, note, hst],
            fun v hv => ?_⟩
          rcases List.mem_append.1 hv with h | h
          · simp at h; omega
          · have := hv1 v h; omega
        | ok st1 =>
          have hs1 := gen_ok_stackpos (by omega) hr
          rw [Tracked.andThen_ok, Result.ok_andThen, pop_pop _ _ (by omega),
            pop_pop_tracked _ _ _ (by omega)]
          refine ⟨[st.stackpos + 8] ++ n1
              ++ [st1.stackpos - 8, st1.stackpos - 16, st1.stackpos - 16 + 8],
            by simp [push_tracked, push, emit, note, hst], fun v hv => ?_⟩
          rcases List.mem_append.1 hv with h | h
          · rcases List.mem_append.1 h with h | h
            · simp at h; omega
            · have := hv1 v h; omega
          · simp only [List.mem_cons, List.mem_singleton, List.not_mem_nil, or_false] at h
            omega
      | num v =>
        exact ⟨[], by simp [gen_lval_tracked, gen_lval, Tracked.andThen_abort,
          Result.abort_andThen], by simp⟩
      | call f args =>
        exact ⟨[], by simp [gen_lval_tracked, gen_lval, Tracked.andThen_abort,
          Result.abort_andThen], by simp⟩
      | binop k2 l2 r2 =>
        exact ⟨[], by simp [gen_lval_tracked, gen_lval, Tracked.andThen_abort,
          Result.abort_andThen], by simp⟩
    · rw [gen_tracked_binop k hk, gen_binop k hk]
      obtain ⟨n1, h1, hv1⟩ := ihl st lv h0
      rw [h1]
      cases hl : gen l idents st with
      | abort e st1 =>
        exact ⟨n1, by simp [Tracked.andThen_abort, Result.abort_andThen], hv1⟩
      | ok st1 =>
        have hs1 := gen_ok_stackpos h0 hl
        obtain ⟨n2, h2, hv2⟩ := ihr st1 (lv ++ n1) (by omega)
        rw [Tracked.andThen_ok, Result.ok_andThen, h2]
        cases hr : gen r idents st1 with
        | abort e st2 =>
          refine ⟨n1 ++ n2, by simp [Tracked.andThen_abort, Result.abort_andThen],
            fun v hv => ?_⟩
          rcases List.mem_append.1 hv with h | h
          · exact hv1 v h
          · have := hv2 v h; omega
        | ok st2 =>
          have hs2 := gen_ok_stackpos (by omega) hr
          rw [Tracked.andThen_ok, Result.ok_andThen, pop_pop _ _ (by omega),
            pop_pop_tracked _ _ _ (by omega)]
          cases hb : binop_lines k with
          | none =>
            refine ⟨n1 ++ n2 ++ [st2.stackpos - 8, st2.stackpos - 16], by simp,
              fun v hv => ?_⟩
            rcases List.mem_append.1 hv with h | h
            · rcases List.mem_append.1 h with h | h
              · exact hv1 v h
              · have := hv2 v h; omega
            · simp only [List.mem_cons, List.mem_singleton, List.not_mem_nil, or_false] at h
              omega
          | some ls =>
            refine ⟨n1 ++ n2 ++ [st2.stackpos - 8, st2.stackpos - 16, st2.stackpos - 16 + 8],
              by simp [push_tracked, push, emit_all, note], fun v hv => ?_⟩
            rcases List.mem_append.1 hv with h | h
            · rcases List.mem_append.1 h with h | h
              · exact hv1 v h
              · have := hv2 v h; omega
            · simp only [List.mem_cons, List.mem_singleton, List.not_mem_nil, or_false] at h
              omega

theorem rsp_lowering_eq : ∀ (is : List Instr),
    rsp_lowering is = bytes_reserved is - bytes_released is
  | [] => rfl
  | i :: is => by
    have ih := rsp_lowering_eq is
    have hi : rsp_lowering_of i = bytes_reserved_of i - bytes_released_of i := by
      cases i <;> simp [rsp_lowering_of, bytes_reserved_of, bytes_released_of]
    simp only [rsp_lowering, bytes_reserved, bytes_released, List.map_cons, List.sum_cons]
      at ih ⊢
    omega

theorem calls_within_six_all_iff : ∀ (args : List Node),
    (∀ a ∈ args, (stack_args a = 0 ↔ calls_within_six a = true)) →
    (stack_args_all args = 0 ↔ calls_within_six_all args = true)
  | [], _ => by simp [stack_args_all, calls_within_six_all]
  | a :: rest, h => by
    have h1 := h a (List.mem_cons_self _ _)
    have h2 := calls_within_six_all_iff rest (fun b hb => h b (List.mem_cons_of_mem _ hb))
    have n1 := stack_args_nonneg a
    have n2 := stack_args_all_nonneg rest (fun b _ => stack_args_nonneg b)
    rw [stack_args_all, calls_within_six_all, Bool.and_eq_true, ← h1, ← h2]
    constructor
    · intro h; constructor <;> omega
    · rintro ⟨ha, hb⟩; omega

theorem calls_within_six_iff (node : Node) :
    stack_args node = 0 ↔ calls_within_six node = true := by
  induction node using Node.induct_aux with
  | hnum v => simp [stack_args, calls_within_six]
  | hident x => simp [stack_args, calls_within_six]
  | hcall f args ih =>
    have h2 := calls_within_six_all_iff args ih
    have n2 := stack_args_all_nonneg args (fun b _ => stack_args_nonneg b)
    rw [stack_args, calls_within_six, Bool.and_eq_true, decide_eq_true_eq, ← h2]
    constructor
    · intro h; constructor <;> omega
    · rintro ⟨ha, hb⟩; omega
  | hbin k l r ihl ihr =>
    have n1 := stack_args_nonneg l
    have n2 := stack_args_nonneg r
    rw [stack_args, calls_within_six, Bool.and_eq_true, ← ihl, ← ihr]
    constructor
    · intro h; constructor <;> omega
    · rintro ⟨ha, hb⟩; omega

/-- C13 at `a = b = 1; c + (a = 2); f(d = 3);`: three entries, `a` resolves to
-24 and `b` to -16. -/
theorem C13_witness_code_mixed :
    (idents_in_code code_mixed).length = 3 ∧
    map_get (idents_in_code code_mixed) "a" = some (-24) ∧
    map_get (idents_in_code code_mixed) "b" = some (-16) ∧
    (-24 : Int) ≠ -16 ∧
    ((-24 : Int) < 0 ∧ (8 : Int) ∣ -24 ∧
      -8 * ((idents_in_code code_mixed).length : Int) ≤ -24 ∧ (-24 : Int) ≤ -8) :=
  ⟨by decide, by decide, by decide,
    (C13_distinct_slots code_mixed).1 "a" "b" (-24) (-16) (by decide) (by decide) (by decide),
    (C13_distinct_slots code_mixed).2 "a" (-24) (by decide)⟩

/-- C14: when `gen` returns on an expression entered with `stackpos >= 0`, the
lines it printed lower `rsp` by `8 + 16 * K` bytes, `K` the number of
stack-passed arguments summed over the calls of the expression; this equals
the change of `stackpos` exactly when every call has at most six arguments. -/
theorem C14_exact_rsp_drift (node : Node) (idents : Map) (st st1 : GenState)
    (h0 : 0 ≤ st.stackpos) (h : gen node idents st = .ok st1) :
    rsp_lowering (st1.out.drop st.out.length) = 8 + 16 * stack_args node ∧
    (rsp_lowering (st1.out.drop st.out.length) = st1.stackpos - st.stackpos
      ↔ calls_within_six node = true) := by
  obtain ⟨code, ho, _, hd⟩ := gen_drift idents node st h0
  rw [h] at ho
  simp only [Result.state] at ho
  have hd1 := hd ⟨st1, h⟩
  have hs := gen_ok_stackpos h0 h
  have hk := stack_args_nonneg node
  rw [ho, drop_out, hd1, ← calls_within_six_iff]
  exact ⟨rfl, by constructor <;> intro _ <;> omega⟩

/-- C14 at `f(1, 2, 3, 4, 5, 6, 7, 8)` entered with `stackpos = 0`: two
stack-passed arguments, `rsp` lowered by 40 bytes, `stackpos` advanced by 8. -/
theorem C14_witness_call_f_8 :
    (0 : Int) ≤ gen_start.stackpos ∧
    gen call_f_8 [] gen_start = .ok (gen call_f_8 [] gen_start).state ∧
    stack_args call_f_8 = 2 ∧
    rsp_lowering ((gen call_f_8 [] gen_start).state.out.drop gen_start.out.length) = 8 + 16 * 2 ∧
    (rsp_lowering ((gen call_f_8 [] gen_start).state.out.drop gen_start.out.length)
        = (gen call_f_8 [] gen_start).state.stackpos - gen_start.stackpos
      ↔ calls_within_six call_f_8 = true) :=
  ⟨by decide, by decide, by decide,
    C14_exact_rsp_drift call_f_8 [] gen_start _ (by decide) (by decide)⟩

/-- C15: from `stackpos >= 0`, in every prefix of the lines `gen` prints for an
expression, also when it stops later, the bytes popped or released do not
exceed the bytes pushed or reserved; and every value `stackpos` takes on the
way, as recorded by the tracked generator, which agrees with `gen`, is at
least the entry value. -/
theorem C15_never_below_entry (node : Node) (idents : Map) (st : GenState)
    (h0 : 0 ≤ st.stackpos) :
    (∀ k : Nat,
      bytes_released (((gen node idents st).state.out.drop st.out.length).take k)
        ≤ bytes_reserved (((gen node idents st).state.out.drop st.out.length).take k)) ∧
    (gen_tracked node idents st []).res = gen node idents st ∧
    (∀ v ∈ (gen_tracked node idents st []).levels, st.stackpos ≤ v) := by
  obtain ⟨code, ho, hs, _⟩ := gen_drift idents node st h0
  obtain ⟨new, ht, hv⟩ := gen_tracked_spec idents node st [] h0
  refine ⟨fun k => ?_, by rw [ht], by rw [ht]; simpa using hv⟩
  have := hs k
  rw [ho, drop_out]
  rw [rsp_lowering_eq] at this
  omega

/-- C15 at `f(1, 2, 3, 4, 5, 6, 7) < 2` entered with `stackpos = 0`, where `gen`
stops on the unexpected operator after the two pops. -/
theorem C15_witness_call_lt_2 :
    (0 : Int) ≤ gen_start.stackpos ∧
    (gen_tracked expr_call_lt_2 [] gen_start []).levels
      = [8, 16, 24, 32, 40, 48, 56, 64, 56, 48, 40, 32, 24, 16, 8, 0, 8, 16, 8, 0] ∧
    (∀ k : Nat,
      bytes_released (((gen expr_call_lt_2 [] gen_start).state.out.drop
          gen_start.out.length).take k)
        ≤ bytes_reserved (((gen expr_call_lt_2 [] gen_start).state.out.drop
          gen_start.out.length).take k)) ∧
    (gen_tracked expr_call_lt_2 [] gen_start []).res = gen expr_call_lt_2 [] gen_start ∧
    (∀ v ∈ (gen_tracked expr_call_lt_2 [] gen_start []).levels, gen_start.stackpos ≤ v) :=
  ⟨by decide, by decide, C15_never_below_entry expr_call_lt_2 [] gen_start (by decide)⟩

/-- C6, the code at `h(f(1, 2, 3, 4, 5, 6, 7), 2)` entered with `stackpos = 0`:
the `sub rsp, 8` printed after `call f` leaves a reserved cell and the stack
argument 7 between the value returned by `f` and the value 2 of the second
argument. When the lines are run up to `call h`, with `f` returning 99, `rdi`
holds 99 but `rsi` holds the content of the reserved cell, not 2, and 7 and 2
are left on the stack. -/
theorem C6_stack_argument_left_in_the_way :
    gen call_h_f7_2 [] gen_start = .ok ⟨8,
      [.push_imm 2, .push_imm 7, .push_imm 6, .push_imm 5, .push_imm 4, .push_imm 3,
        .push_imm 2, .push_imm 1, .pop .rdi, .pop .rsi, .pop .rdx, .pop .rcx, .pop .r8,
        .pop .r9, .xor_rax_rax, .call "f", .sub_rsp 8, .push .rax,
        .pop .rdi, .pop .rsi, .xor_rax_rax, .call "h", .push .rax],
      [⟨7, 8, false, 16⟩, ⟨2, 0, false, 0⟩]⟩ ∧
    (run_ext (fun _ => 99) ((gen call_h_f7_2 [] gen_start).state.out.take 21) machine0).map
      (fun m => (m.rdi, m.rsi, m.stack)) = some (99, 0, [7, 2]) := by
  decide

mutual
theorem RawNode.induct_raw {P : RawNode → Prop}
    (h : ∀ ty val name args lhs rhs, (∀ a ∈ args, P a) → (∀ l, lhs = some l → P l) →
      (∀ r, rhs = some r → P r) → P (.mk ty val name args lhs rhs)) : ∀ n, P n
  | .mk ty val name args lhs rhs => h ty val name args lhs rhs (RawNode.induct_raw_list h args)
      (RawNode.induct_raw_ptr h lhs) (RawNode.induct_raw_ptr h rhs)
theorem RawNode.induct_raw_ptr {P : RawNode → Prop}
    (h : ∀ ty val name args lhs rhs, (∀ a ∈ args, P a) → (∀ l, lhs = some l → P l) →
      (∀ r, rhs = some r → P r) → P (.mk ty val name args lhs rhs)) :
    ∀ p : Option RawNode, ∀ n, p = some n → P n
  | none => fun _ e => nomatch e
  | some m => fun n e => by
    cases e
    exact RawNode.induct_raw h m
theorem RawNode.induct_raw_list {P : RawNode → Prop}
    (h : ∀ ty val name args lhs rhs, (∀ a ∈ args, P a) → (∀ l, lhs = some l → P l) →
      (∀ r, rhs = some r → P r) → P (.mk ty val name args lhs rhs)) :
    ∀ args : List RawNode, ∀ a ∈ args, P a
  | [] => fun _ hm => absurd hm (List.not_mem_nil _)
  | b :: rest => fun a hm => by
    rcases List.mem_cons.1 hm with hm | hm
    · subst hm; exact RawNode.induct_raw h a
    · exact RawNode.induct_raw_list h rest a hm
end

theorem wrap32_of_range (z : Int) (h0 : -2147483648 ≤ z) (h1 : z ≤ INT_MAX) : wrap32 z = z := by
  unfold INT_MAX at h1
  unfold wrap32
  omega

theorem pop_raw_of_le (r : Reg) (st : GenState) (h : 8 ≤ st.stackpos)
    (h1 : st.stackpos ≤ INT_MAX) :
    pop_raw r st = .returned ⟨st.stackpos - 8, st.out ++ [.pop r], st.calls⟩ := by
  have h0 : (0 : Int) ≤ st.stackpos - 8 := by omega
  simp [pop_raw, emit, wrap32_of_range _ (by omega) (by omega : st.stackpos - 8 ≤ INT_MAX), h0]

theorem pop_raw_eq (r : Reg) (st : GenState) (h : 8 ≤ st.stackpos)
    (h1 : st.stackpos ≤ INT_MAX) : pop_raw r st = .of_result (pop r st) := by
  rw [pop_raw_of_le r st h h1, pop_of_le r st h]
  rfl

end CCompiler
